import Mathlib

/-!
# Verification of the HDP collapsed Gibbs sampler (`src/hdp/cgs.py`)

A shallow embedding of the sampler state and of the operations
`_initialize`, `update_params`, the word-to-table resampling step, the
table-to-topic resampling step and `compact_params` of the class
`CollapsedGibbsSampling`.

Modelling conventions:
* numpy integer/float count arrays hold integer values throughout the
  sampler; they are embedded as `List ℤ` / `List (List ℤ)`.
* hyperparameters `alpha`, `gamma`, `eta` and all probability arithmetic
  are embedded over `ℚ` (float rounding is not modelled).
* `scipy.special.gammaln`, `numpy.log` and `numpy.exp` are strictly
  numerical black boxes; they are passed as parameters `lgam lg ex : ℚ → ℚ`.
  The literal `-1e500` in the source parses to the float `-inf`, whose
  `numpy.exp` is exactly `0`; it is embedded as the dedicated value
  `LogWeight.negInf` whose exponentiation is defined to be `0`.
* `numpy.uint8(x)` on a non-negative index is `x % 256`.
* out-of-range numpy indexing raises; `List.getD`/`List.set` return a
  default / do nothing there, and every theorem that needs in-range
  indices carries explicit bounds hypotheses.
-/

namespace HDP

/-- The mutable state of `CollapsedGibbsSampling`: topic count `K`,
vocabulary size `V`, document count `D`, the hyperparameters, the corpus,
and the sufficient statistics `n_kv`, `n_kd`, `m_k`, `t_dv`, `k_dt`,
`n_dt` (dictionaries keyed by contiguous document ids are lists). -/
structure HDPState where
  K : ℕ
  V : ℕ
  D : ℕ
  alpha : ℚ
  gamma : ℚ
  eta : ℚ
  corpus : List (List ℕ)
  n_kv : List (List ℤ)
  n_kd : List (List ℤ)
  m_k : List ℤ
  t_dv : List (List ℕ)
  k_dt : List (List ℕ)
  n_dt : List (List ℤ)
deriving Repr, DecidableEq

/-- 1-D in-place entry update `l[i] = f(l[i])`. -/
def upd1 (l : List ℤ) (i : ℕ) (f : ℤ → ℤ) : List ℤ :=
  l.set i (f (l.getD i 0))

/-- 2-D in-place entry update `m[i][j] = f(m[i][j])`. -/
def update2 (m : List (List ℤ)) (i j : ℕ) (f : ℤ → ℤ) : List (List ℤ) :=
  m.set i ((m.getD i []).set j (f ((m.getD i []).getD j 0)))

/-- 2-D in-place entry assignment for ℕ-valued matrices. -/
def setNat2 (m : List (List ℕ)) (i j : ℕ) (a : ℕ) : List (List ℕ) :=
  m.set i ((m.getD i []).set j a)

/-- `self._n_dt[d][t]`. -/
def nDT (s : HDPState) (d t : ℕ) : ℤ := (s.n_dt.getD d []).getD t 0

/-- `self._k_dt[d][t]`. -/
def kDT (s : HDPState) (d t : ℕ) : ℕ := (s.k_dt.getD d []).getD t 0

/-- `self._t_dv[d][i]`. -/
def tDV (s : HDPState) (d i : ℕ) : ℕ := (s.t_dv.getD d []).getD i 0

/-- `self._corpus[d][i]`. -/
def wordAt (s : HDPState) (d i : ℕ) : ℕ := (s.corpus.getD d []).getD i 0

/-- `self._n_kv[k, v]`. -/
def nKV (s : HDPState) (k v : ℕ) : ℤ := (s.n_kv.getD k []).getD v 0

/-- `self._n_kd[k, d]`. -/
def nKD (s : HDPState) (k d : ℕ) : ℤ := (s.n_kd.getD k []).getD d 0

/-- `self._m_k[k]`. -/
def mK (s : HDPState) (k : ℕ) : ℤ := s.m_k.getD k 0

/-- `numpy.sum(self._n_kv, axis=1)[k]`: total word count of topic k. -/
def nK (s : HDPState) (k : ℕ) : ℤ := (s.n_kv.getD k []).sum

/-- `update_params(document_index, word_index, update)`, cgs.py
lines 261–290: move token (d,i) in or out of the statistics of its
current table `t_dv[d][i]` and that table's topic; adjust `m_k` when the
table becomes empty (`update == -1`) or non-empty (`update == +1`). -/
def update_params (s : HDPState) (d i : ℕ) (upd : ℤ) : HDPState :=
  let t := tDV s d i
  let k := kDT s d t
  let v := wordAt s d i
  let n_dt' := update2 s.n_dt d t (· + upd)
  let m_k' :=
    if upd = -1 ∧ (n_dt'.getD d []).getD t 0 = 0 then
      s.m_k.set k (s.m_k.getD k 0 - 1)
    else s.m_k
  let m_k'' :=
    if upd = 1 ∧ (n_dt'.getD d []).getD t 0 = 1 then
      m_k'.set k (m_k'.getD k 0 + 1)
    else m_k'
  { s with n_dt := n_dt',
           n_kv := update2 s.n_kv k v (· + upd),
           n_kd := update2 s.n_kd k d (· + upd),
           m_k := m_k'' }

/-- `self._V`: the number of distinct word-ids of the corpus
(`len(list(set(vocab)))`, cgs.py lines 57–64). -/
def vocabSize (corpus : List (List ℕ)) : ℕ := corpus.join.dedup.length

/-- The per-document initialization loop of `_initialize`
(cgs.py lines 81–99) acting on the triple `(n_kv, n_kd, m_k)`:
for each document d, every token v bumps `n_kv[0, v]`, then
`n_kd[0, d] = len(corpus[d])` and `m_k[0] += len(k_dt[d])` with the
just-created `k_dt[d]` of length 1. -/
def initStats (corpus : List (List ℕ)) (V K : ℕ) :
    List (List ℤ) × List (List ℤ) × List ℤ :=
  (List.range corpus.length).foldl
    (fun acc d =>
      ((corpus.getD d []).foldl (fun m v => update2 m 0 v (· + 1)) acc.1,
       update2 acc.2.1 0 d (fun _ => ((corpus.getD d []).length : ℤ)),
       acc.2.2.set 0 (acc.2.2.getD 0 0 + 1)))
    (List.replicate K (List.replicate V 0),
     List.replicate K (List.replicate corpus.length 0),
     List.replicate K 0)

/-- `_initialize(data, K, alpha, gamma, eta)`, cgs.py lines 40–99:
all tokens of document d sit on table 0 (`t_dv[d] = zeros(len)`), the
single table is assigned topic 0 (`k_dt[d] = zeros(1)`) and carries all
tokens (`n_dt[d] = zeros(1) + len`). -/
def initializeState (corpus : List (List ℕ)) (K : ℕ) (alpha gamma eta : ℚ) :
    HDPState :=
  let D := corpus.length
  let V := vocabSize corpus
  let st := initStats corpus V K
  { K := K, V := V, D := D, alpha := alpha, gamma := gamma, eta := eta,
    corpus := corpus,
    n_kv := st.1, n_kd := st.2.1, m_k := st.2.2,
    t_dv := corpus.map (fun doc => List.replicate doc.length 0),
    k_dt := List.replicate D [0],
    n_dt := corpus.map (fun doc => [(doc.length : ℤ)]) }

/-- `numpy.cumsum` with running accumulator `a`. -/
def cumsum (a : ℚ) : List ℚ → List ℚ
  | [] => []
  | x :: xs => (a + x) :: cumsum (a + x) xs

/-- Inverse-CDF categorical draw used at cgs.py lines 145–147, 166–168 and
228–230: normalize the weights, take cumulative sums and return the first
index whose cdf meets the uniform draw `u`
(`numpy.nonzero(cdf >= u)[0][0]`).  An empty hit set would raise
IndexError in the source; it is modelled as returning the length. -/
def selectIndex (w : List ℚ) (u : ℚ) : ℕ :=
  let total := w.sum
  let cdf := cumsum 0 (w.map (· / total))
  cdf.findIdx (fun c => decide (u ≤ c))

/-- Predictive word probability `f[k]` of word v under topic k,
cgs.py line 130. -/
def fk (s : HDPState) (v k : ℕ) : ℚ :=
  ((nKV s k v : ℚ) + s.eta) / ((nK s k : ℚ) + (s.V : ℚ) * s.eta)

/-- The array `f` filled by the loop at cgs.py lines 129–131. -/
def fVec (s : HDPState) (v : ℕ) : List ℚ := (List.range s.K).map (fk s v)

/-- `f_new` after the accumulation loop and final normalization,
cgs.py lines 128–132. -/
def fNewTotal (s : HDPState) (v : ℕ) : ℚ :=
  ((List.range s.K).foldl
      (fun acc k => acc + (mK s k : ℚ) * (fVec s v).getD k 0)
      (s.gamma / (s.V : ℚ)))
    / ((s.m_k.sum : ℚ) + s.gamma)

/-- The unnormalized `table_probablity` vector, cgs.py lines 134–144:
one slot per existing table of document d plus a final new-table slot. -/
def tableProb (s : HDPState) (d v : ℕ) : List ℚ :=
  ((List.range (s.k_dt.getD d []).length).map (fun t =>
      if 0 < nDT s d t then (fVec s v).getD (kDT s d t) 0 * (nDT s d t : ℚ)
      else 0))
    ++ [s.alpha * fNewTotal s v]

/-- The `topic_probability` vector for a freshly created table,
cgs.py lines 162–164. -/
def topicProbs (s : HDPState) (v : ℕ) : List ℚ :=
  ((List.range s.K).map (fun k => (mK s k : ℚ) * (fVec s v).getD k 0))
    ++ [s.gamma / (s.V : ℚ)]

/-- Growing K by one and extending `n_kv`, `n_kd`, `m_k` with zero
rows/entries (cgs.py lines 171–179, identically lines 238–245). -/
def expandTopic (s : HDPState) : HDPState :=
  { s with K := s.K + 1,
           n_kv := s.n_kv ++ [List.replicate s.V 0],
           n_kd := s.n_kd ++ [List.replicate s.D 0],
           m_k := s.m_k ++ [0] }

/-- One word-to-table resampling step for token (d,i), cgs.py
lines 120–183, with `u1` the uniform draw of the table choice and `u2`
the draw of the fresh table's topic choice.  The sampled indices pass
through `numpy.uint8`, i.e. `% 256`.  Note that the source never writes
the sampled topic `k_new` into `k_dt`: the freshly appended table keeps
the zero placeholder topic, and this embedding reproduces that. -/
def wordStep (s : HDPState) (d i : ℕ) (u1 u2 : ℚ) : HDPState :=
  let s1 := update_params s d i (-1)
  let v := wordAt s1 d i
  let newTable := selectIndex (tableProb s1 d v) u1 % 256
  let s2 := { s1 with t_dv := setNat2 s1.t_dv d i newTable }
  if newTable = (s1.k_dt.getD d []).length then
    let s3 := { s2 with n_dt := s2.n_dt.set d (s2.n_dt.getD d [] ++ [0]),
                        k_dt := s2.k_dt.set d (s2.k_dt.getD d [] ++ [0]) }
    let kNew := selectIndex (topicProbs s1 v) u2 % 256
    let s4 := if kNew = s1.K then expandTopic s3 else s3
    update_params s4 d i 1
  else
    update_params s2 d i 1

/-- A numerical log-weight: either the float `-inf` written as `-1e500`
at cgs.py line 211, or a finite value. -/
inductive LogWeight where
  | negInf : LogWeight
  | val : ℚ → LogWeight
deriving Repr, DecidableEq

/-- `numpy.exp` on a log-weight: `exp(-inf) = 0` exactly. -/
def expW (ex : ℚ → ℚ) : LogWeight → ℚ
  | .negInf => 0
  | .val q => ex q

/-- The word-ids of the tokens sitting on table t of document d
(cgs.py lines 193–196); the `FreqDist` frequency of word w is
`(tableWords s d t).count w` and its key set is the deduplicated list. -/
def tableWords (s : HDPState) (d t : ℕ) : List ℕ :=
  ((List.range (s.t_dv.getD d []).length).filter
      (fun i => (s.t_dv.getD d []).getD i 0 = t)).map
    (fun i => (s.corpus.getD d []).getD i 0)

/-- `topic_probablity[self._K]`: log-weight of seating table (d,t) at a
brand-new topic, cgs.py lines 198–201. -/
def lpNewTopic (lgam lg : ℚ → ℚ) (s : HDPState) (d t : ℕ) : ℚ :=
  let ws := tableWords s d t
  ws.dedup.foldl
      (fun acc w => acc + lgam ((ws.count w : ℚ) + s.eta) - lgam s.eta)
      (lgam ((s.V : ℚ) * s.eta) - lgam ((nDT s d t : ℚ) + (s.V : ℚ) * s.eta))
    + lg s.gamma

/-- `topic_probablity[topic_index]`: log-weight of assigning table (d,t)
to the existing topic k, cgs.py lines 205–224, including the `-1e500`
special case for the current topic when `m_k[k] <= 1`. -/
def lpTopic (lgam lg : ℚ → ℚ) (s : HDPState) (d t k : ℕ) : LogWeight :=
  let ws := tableWords s d t
  let old := kDT s d t
  if k = old then
    if mK s k ≤ 1 then .negInf
    else
      .val (ws.dedup.foldl
          (fun acc w => acc + lgam ((nKV s k w : ℚ) + s.eta) -
            lgam ((nKV s k w : ℚ) + s.eta - (ws.count w : ℚ)))
          (lgam ((s.V : ℚ) * s.eta + (nK s k : ℚ) - (nDT s d t : ℚ)) -
            lgam ((s.V : ℚ) * s.eta + (nK s k : ℚ)))
        + lg ((mK s k : ℚ) - 1))
  else
    .val (ws.dedup.foldl
        (fun acc w => acc + lgam ((nKV s k w : ℚ) + s.eta + (ws.count w : ℚ)) -
          lgam ((nKV s k w : ℚ) + s.eta))
        (lgam ((s.V : ℚ) * s.eta + (nK s k : ℚ)) -
          lgam ((s.V : ℚ) * s.eta + (nK s k : ℚ) + (nDT s d t : ℚ)))
      + lg (mK s k : ℚ))

/-- The exponentiated `topic_probablity` vector of the table step
(cgs.py lines 191–227): slots 0..K-1 for the existing topics and slot K
for a brand-new topic. -/
def topicWeightVec (lgam lg ex : ℚ → ℚ) (s : HDPState) (d t : ℕ) : List ℚ :=
  ((List.range s.K).map (fun k => expW ex (lpTopic lgam lg s d t k)))
    ++ [ex (lpNewTopic lgam lg s d t)]

/-- One table-to-topic resampling step for table (d,t), cgs.py
lines 186–256, with `u` the uniform draw. -/
def tableStep (lgam lg ex : ℚ → ℚ) (s : HDPState) (d t : ℕ) (u : ℚ) :
    HDPState :=
  if 0 < nDT s d t then
    let old := kDT s d t
    let newTopic := selectIndex (topicWeightVec lgam lg ex s d t) u % 256
    if newTopic ≠ old then
      let ws := tableWords s d t
      let sz := nDT s d t
      let s1 := { s with k_dt := setNat2 s.k_dt d t newTopic }
      let s2 := if newTopic = s.K then expandTopic s1 else s1
      { s2 with
        m_k := upd1 (upd1 s2.m_k old (· - 1)) newTopic (· + 1),
        n_kd := update2 (update2 s2.n_kd old d (· - sz)) newTopic d (· + sz),
        n_kv := ws.dedup.foldl
          (fun m w =>
            update2 (update2 m old w (· - (ws.count w : ℤ))) newTopic w
              (· + (ws.count w : ℤ)))
          s2.n_kv }
    else s
  else s

/-- The table-to-topic pass over a document: the source visits the tables
in a random permutation; the visiting order and per-table draws are the
parameter `ts`. -/
def tableSweep (lgam lg ex : ℚ → ℚ) (s : HDPState) (d : ℕ)
    (ts : List (ℕ × ℚ)) : HDPState :=
  ts.foldl (fun st p => tableStep lgam lg ex st d p.1 p.2) s

/-- The ascending list of topics with `m_k != 0`
(`used_topics = numpy.nonzero(self._m_k != 0)[0]`, cgs.py line 295). -/
def usedTopics (s : HDPState) : List ℕ :=
  (List.range s.m_k.length).filter (fun k => s.m_k.getD k 0 ≠ 0)

/-- The ascending list of non-empty tables of document d
(`used_tables = numpy.nonzero(self._n_dt[d] != 0)[0]`, cgs.py line 310). -/
def usedTables (s : HDPState) (d : ℕ) : List ℕ :=
  (List.range (s.n_dt.getD d []).length).filter
    (fun t => (s.n_dt.getD d []).getD t 0 ≠ 0)

/-- The sequential in-place remap loops of `compact_params`
(cgs.py lines 317–318 and 322–323): pass t rewrites, in ascending order,
every occurrence of the old index `used[t]` to the new index `t`. -/
def remapSeq (used : List ℕ) (count : ℕ) (xs : List ℕ) : List ℕ :=
  (List.range count).foldl
    (fun acc t => acc.map (fun x => if x = used.getD t 0 then t else x)) xs

/-- `compact_params`, cgs.py lines 292–323: delete the rows/entries of
topics with `m_k == 0` and, per document, the entries of tables with
`n_dt == 0`, then renumber the surviving table indices inside `t_dv[d]`
and the surviving topic indices inside `k_dt[d]`. -/
def compact_params (s : HDPState) : HDPState :=
  let used := usedTopics s
  let K' := s.K - (s.m_k.length - used.length)
  { s with
    K := K',
    n_kd := used.map (fun k => s.n_kd.getD k []),
    n_kv := used.map (fun k => s.n_kv.getD k []),
    m_k := used.map (fun k => s.m_k.getD k 0),
    n_dt := (List.range s.D).map (fun d =>
      (usedTables s d).map (fun t => (s.n_dt.getD d []).getD t 0)),
    k_dt := (List.range s.D).map (fun d =>
      remapSeq used K'
        ((usedTables s d).map (fun t => (s.k_dt.getD d []).getD t 0))),
    t_dv := (List.range s.D).map (fun d =>
      remapSeq (usedTables s d) (usedTables s d).length
        (s.t_dv.getD d [])) }

/-- Well-formedness of the sampler state (the §3 invariants the spec
demands after every atomic update): shapes agree, indices are valid,
`n_dt` counts the seated tokens per table and `m_k[k]` is non-zero
exactly when some non-empty table is assigned topic k. -/
def WF (s : HDPState) : Prop :=
  s.m_k.length = s.K ∧ s.n_kv.length = s.K ∧ s.n_kd.length = s.K ∧
  s.t_dv.length = s.D ∧ s.k_dt.length = s.D ∧ s.n_dt.length = s.D ∧
  (∀ d, d < s.D →
    (s.k_dt.getD d []).length = (s.n_dt.getD d []).length) ∧
  (∀ d, d < s.D →
    ∀ x ∈ s.t_dv.getD d [], x < (s.n_dt.getD d []).length) ∧
  (∀ d, d < s.D → ∀ x ∈ s.k_dt.getD d [], x < s.K) ∧
  (∀ d, d < s.D → ∀ t, t < (s.n_dt.getD d []).length →
    (s.n_dt.getD d []).getD t 0 = ((s.t_dv.getD d []).count t : ℤ)) ∧
  (∀ k, k < s.K → (s.m_k.getD k 0 ≠ 0 ↔
    ∃ d, d < s.D ∧ ∃ t, t < (s.n_dt.getD d []).length ∧
      (s.n_dt.getD d []).getD t 0 ≠ 0 ∧ (s.k_dt.getD d []).getD t 0 = k))

instance (s : HDPState) : Decidable (WF s) := by
  unfold WF
  infer_instance

/-! ## Concrete states used in scenario conjuncts, witnesses and
counterexamples -/

/-- The spec's scenario corpus: a single document `[0,0,0,1,1]`. -/
def exCorpus : List (List ℕ) := [[0, 0, 0, 1, 1]]

/-- The scenario state: `_initialize({0: [0,0,0,1,1]}, K=1, alpha=1,
gamma=1, eta=1)`. -/
def exS0 : HDPState := initializeState exCorpus 1 1 1 1

/-- A small two-topic state with an abandoned topic (`m_k[1] = 0`) and an
empty table, exercising `compact_params`: document 0 has tokens `[0,0]`,
both on table 0 (topic 0); table 1 is empty and still labelled with
topic 1. -/
def cmpState : HDPState :=
  { K := 2, V := 1, D := 1, alpha := 1, gamma := 1, eta := 1,
    corpus := [[0, 0]],
    n_kv := [[2], [0]], n_kd := [[2], [0]], m_k := [1, 0],
    t_dv := [[0, 0]], k_dt := [[0, 1]], n_dt := [[2, 0]] }

/-- A state with one table holding tokens of word-ids 0 and 1, whose
topic 0 has another table elsewhere (`m_k[0] = 2`), for exercising the
table-to-topic weight of the current topic. -/
def tblState : HDPState :=
  { K := 1, V := 2, D := 2, alpha := 1, gamma := 1, eta := 1,
    corpus := [[0, 1, 1], [0]],
    n_kv := [[2, 2]], n_kd := [[3], [1]], m_k := [2],
    t_dv := [[0, 0, 0], [0]], k_dt := [[0], [0]], n_dt := [[3], [1]] }

/-- The one-token corpus state `_initialize({0: [0]}, K=1, 1, 1, 1)`:
after retracting its only token, all the probability mass of both the
table draw and the topic draw sits on the final (new) slot. -/
def newState : HDPState := initializeState [[0]] 1 1 1 1

/-- A state with 256 topics (`K = 256`) and a single one-token document,
whose table counts `m_k` are all zero after the token is retracted: the
inverse-CDF topic draw for a fresh table then deterministically selects
the new-topic slot, index 256, which `numpy.uint8` wraps to 0. -/
def bigState : HDPState :=
  { K := 256, V := 1, D := 1, alpha := 1, gamma := 1, eta := 1,
    corpus := [[0]],
    n_kv := (List.replicate 256 ([0] : List ℤ)).set 0 [1],
    n_kd := (List.replicate 256 ([0] : List ℤ)).set 0 [1],
    m_k := (List.replicate 256 (0 : ℤ)).set 0 1,
    t_dv := [[0]], k_dt := [[0]], n_dt := [[1]] }

/-! ## List lemmas -/

lemma getD_set_self {α : Type} (l : List α) (i : ℕ) (a d : α)
    (h : i < l.length) : (l.set i a).getD i d = a := by
  induction l generalizing i with
  | nil => simp at h
  | cons x xs ih =>
    cases i with
    | zero => rfl
    | succ n =>
      simpa using ih n (Nat.lt_of_succ_lt_succ h)

lemma getD_set_ne {α : Type} (l : List α) (i j : ℕ) (a d : α)
    (h : i ≠ j) : (l.set i a).getD j d = l.getD j d := by
  induction l generalizing i j with
  | nil => rfl
  | cons x xs ih =>
    cases i with
    | zero =>
      cases j with
      | zero => exact absurd rfl h
      | succ m => rfl
    | succ n =>
      cases j with
      | zero => rfl
      | succ m =>
        simpa using ih n m (fun hh => h (by rw [hh]))

lemma sum_set_add (l : List ℤ) (i : ℕ) (c : ℤ) (h : i < l.length) :
    (l.set i (l.getD i 0 + c)).sum = l.sum + c := by
  induction l generalizing i with
  | nil => simp at h
  | cons x xs ih =>
    cases i with
    | zero => simp [add_right_comm]
    | succ n =>
      simp only [List.set_cons_succ, List.getD_cons_succ, List.sum_cons]
      rw [ih n (Nat.lt_of_succ_lt_succ h)]
      ring

lemma getD2_update2_self (m : List (List ℤ)) (i j : ℕ) (f : ℤ → ℤ)
    (hi : i < m.length) (hj : j < (m.getD i []).length) :
    ((update2 m i j f).getD i []).getD j 0 = f ((m.getD i []).getD j 0) := by
  unfold update2
  rw [getD_set_self _ _ _ _ hi, getD_set_self _ _ _ _ hj]

lemma getD_update2_ne_row (m : List (List ℤ)) (a b i : ℕ) (f : ℤ → ℤ)
    (h : a ≠ i) : (update2 m a b f).getD i [] = m.getD i [] := by
  unfold update2
  exact getD_set_ne _ _ _ _ _ h

lemma length_update2 (m : List (List ℤ)) (a b : ℕ) (f : ℤ → ℤ) :
    (update2 m a b f).length = m.length := by
  unfold update2; exact List.length_set m a _

lemma getD2_update2_ne (m : List (List ℤ)) (a b i j : ℕ) (f : ℤ → ℤ)
    (h : ¬(a = i ∧ b = j)) :
    ((update2 m a b f).getD i []).getD j 0 = (m.getD i []).getD j 0 := by
  by_cases hai : a = i
  · subst hai
    have hbj : b ≠ j := fun hb => h ⟨rfl, hb⟩
    unfold update2
    by_cases hlen : a < m.length
    · rw [getD_set_self _ _ _ _ hlen, getD_set_ne _ _ _ _ _ hbj]
    · rw [List.set_eq_of_length_le (Nat.le_of_not_lt hlen)]
  · rw [getD_update2_ne_row _ _ _ _ _ hai]

/-! ## C3: update_params moves one token in or out of the statistics -/

/-- **C3**: for a token (d,i) seated at table `t = t_dv[d][i]` of topic
`k = k_dt[d][t]` with word-id `v = corpus[d][i]` (all indices in range),
`update_params(d,i,-1)` on a table with positive count decrements
`n_dt[d][t]`, `n_kv[k][v]` and `n_kd[k][d]` each by exactly one and
decrements `m_k[k]` exactly when the table's count reaches zero;
`update_params(d,i,+1)` increments those three counts by one and
increments `m_k[k]` exactly when the table's count goes from zero to
one.  In particular, for the corpus `{0: [0,0,0,1,1]}` after
initialization, retracting token 0 leaves `n_dt[0][0] == 4` and
`n_kv[0][0] == 2`. -/
theorem update_params_moves_one_token (s : HDPState) (d i : ℕ)
    (hd : d < s.n_dt.length)
    (ht : tDV s d i < (s.n_dt.getD d []).length)
    (hk : kDT s d (tDV s d i) < s.m_k.length)
    (hkv : kDT s d (tDV s d i) < s.n_kv.length)
    (hv : wordAt s d i < (s.n_kv.getD (kDT s d (tDV s d i)) []).length)
    (hkd : kDT s d (tDV s d i) < s.n_kd.length)
    (hdd : d < (s.n_kd.getD (kDT s d (tDV s d i)) []).length) :
    (0 < nDT s d (tDV s d i) →
      nDT (update_params s d i (-1)) d (tDV s d i)
          = nDT s d (tDV s d i) - 1 ∧
      nKV (update_params s d i (-1)) (kDT s d (tDV s d i)) (wordAt s d i)
          = nKV s (kDT s d (tDV s d i)) (wordAt s d i) - 1 ∧
      nKD (update_params s d i (-1)) (kDT s d (tDV s d i)) d
          = nKD s (kDT s d (tDV s d i)) d - 1 ∧
      (nDT s d (tDV s d i) = 1 →
        mK (update_params s d i (-1)) (kDT s d (tDV s d i))
            = mK s (kDT s d (tDV s d i)) - 1) ∧
      (nDT s d (tDV s d i) ≠ 1 → (update_params s d i (-1)).m_k = s.m_k)) ∧
    (nDT (update_params s d i 1) d (tDV s d i) = nDT s d (tDV s d i) + 1 ∧
     nKV (update_params s d i 1) (kDT s d (tDV s d i)) (wordAt s d i)
         = nKV s (kDT s d (tDV s d i)) (wordAt s d i) + 1 ∧
     nKD (update_params s d i 1) (kDT s d (tDV s d i)) d
         = nKD s (kDT s d (tDV s d i)) d + 1 ∧
     (nDT s d (tDV s d i) = 0 →
       mK (update_params s d i 1) (kDT s d (tDV s d i))
           = mK s (kDT s d (tDV s d i)) + 1) ∧
     (nDT s d (tDV s d i) ≠ 0 → (update_params s d i 1).m_k = s.m_k)) ∧
    (nDT (update_params exS0 0 0 (-1)) 0 0 = 4 ∧
     nKV (update_params exS0 0 0 (-1)) 0 0 = 2) := by
  set t := tDV s d i with htdef
  set k := kDT s d t with hkdef
  set v := wordAt s d i with hvdef
  have hcnt : ∀ u : ℤ,
      ((update2 s.n_dt d t (· + u)).getD d []).getD t 0
        = nDT s d t + u := fun u => getD2_update2_self s.n_dt d t _ hd ht
  refine ⟨fun hpos => ?_, ?_, by decide⟩
  · constructor
    · show ((update2 s.n_dt d t (· + (-1))).getD d []).getD t 0 = _
      rw [hcnt]; unfold nDT; ring
    constructor
    · show ((update2 s.n_kv k v (· + (-1))).getD k []).getD v 0 = _
      rw [getD2_update2_self s.n_kv k v _ hkv hv]; unfold nKV; ring
    constructor
    · show ((update2 s.n_kd k d (· + (-1))).getD k []).getD d 0 = _
      rw [getD2_update2_self s.n_kd k d _ hkd hdd]; unfold nKD; ring
    constructor
    · intro h1
      show (update_params s d i (-1)).m_k.getD k 0 = _
      simp only [update_params]
      rw [if_neg fun hc => absurd hc.1 (by decide),
        if_pos ⟨by trivial, by rw [hcnt]; omega⟩, getD_set_self _ _ _ _ hk]
      rfl
    · intro h1
      show (update_params s d i (-1)).m_k = s.m_k
      simp only [update_params]
      rw [if_neg fun hc => absurd hc.1 (by decide),
        if_neg (by rintro ⟨-, h⟩; rw [hcnt] at h; omega)]
  · constructor
    · show ((update2 s.n_dt d t (· + 1)).getD d []).getD t 0 = _
      rw [hcnt]
    constructor
    · show ((update2 s.n_kv k v (· + 1)).getD k []).getD v 0 = _
      rw [getD2_update2_self s.n_kv k v _ hkv hv]; unfold nKV; rfl
    constructor
    · show ((update2 s.n_kd k d (· + 1)).getD k []).getD d 0 = _
      rw [getD2_update2_self s.n_kd k d _ hkd hdd]; unfold nKD; rfl
    constructor
    · intro h0
      show (update_params s d i 1).m_k.getD k 0 = _
      simp only [update_params]
      rw [if_pos ⟨by trivial, by rw [hcnt]; omega⟩,
        if_neg fun hc => absurd hc.1 (by decide), getD_set_self _ _ _ _ hk]
      rfl
    · intro h0
      show (update_params s d i 1).m_k = s.m_k
      simp only [update_params]
      rw [if_neg (by rintro ⟨-, h⟩; rw [hcnt] at h; omega),
        if_neg fun hc => absurd hc.1 (by decide)]

/-! ## C9: the table-to-topic step never modifies n_dt -/

lemma update_params_t_dv (s : HDPState) (d i : ℕ) (u : ℤ) :
    (update_params s d i u).t_dv = s.t_dv := rfl

lemma update_params_k_dt (s : HDPState) (d i : ℕ) (u : ℤ) :
    (update_params s d i u).k_dt = s.k_dt := rfl

lemma update_params_K (s : HDPState) (d i : ℕ) (u : ℤ) :
    (update_params s d i u).K = s.K := rfl

lemma update_params_corpus (s : HDPState) (d i : ℕ) (u : ℤ) :
    (update_params s d i u).corpus = s.corpus := rfl

/-- A single table-to-topic step leaves the `n_dt` and `t_dv` fields
untouched, whatever topic the draw selects and even when a brand-new
topic is created. -/
lemma tableStep_fields (lgam lg ex : ℚ → ℚ) (s : HDPState) (d t : ℕ)
    (u : ℚ) :
    (tableStep lgam lg ex s d t u).n_dt = s.n_dt ∧
    (tableStep lgam lg ex s d t u).t_dv = s.t_dv := by
  unfold tableStep
  repeat' split <;> simp [expandTopic]

/-- The whole per-document table pass leaves `n_dt` and `t_dv`
untouched. -/
lemma tableSweep_fields (lgam lg ex : ℚ → ℚ) (s : HDPState) (d : ℕ)
    (ts : List (ℕ × ℚ)) :
    (tableSweep lgam lg ex s d ts).n_dt = s.n_dt ∧
    (tableSweep lgam lg ex s d ts).t_dv = s.t_dv := by
  induction ts generalizing s with
  | nil => exact ⟨rfl, rfl⟩
  | cons p ps ih =>
    unfold tableSweep at *
    simp only [List.foldl_cons]
    refine ⟨?_, ?_⟩
    · rw [(ih _).1, (tableStep_fields lgam lg ex s d p.1 p.2).1]
    · rw [(ih _).2, (tableStep_fields lgam lg ex s d p.1 p.2).2]

/-- **C9**: the table-to-topic resampling step never modifies `n_dt`:
every entry of every document's `n_dt` (and the token-to-table map
`t_dv`) is the same before and after a single table step and after a
whole per-document pass, whatever topic is sampled, including when a
brand-new topic is created. -/
theorem tableStep_never_modifies_n_dt (lgam lg ex : ℚ → ℚ) (s : HDPState)
    (d t : ℕ) (u : ℚ) (ts : List (ℕ × ℚ)) (d' t' i : ℕ) :
    nDT (tableStep lgam lg ex s d t u) d' t' = nDT s d' t' ∧
    tDV (tableStep lgam lg ex s d t u) d' i = tDV s d' i ∧
    (tableStep lgam lg ex s d t u).n_dt = s.n_dt ∧
    (tableSweep lgam lg ex s d ts).n_dt = s.n_dt ∧
    (tableSweep lgam lg ex s d ts).t_dv = s.t_dv := by
  refine ⟨?_, ?_, (tableStep_fields lgam lg ex s d t u).1,
    (tableSweep_fields lgam lg ex s d ts).1,
    (tableSweep_fields lgam lg ex s d ts).2⟩
  · unfold nDT; rw [(tableStep_fields lgam lg ex s d t u).1]
  · unfold tDV; rw [(tableStep_fields lgam lg ex s d t u).2]

/-- Witness for C3 at the scenario state: the hypotheses hold and
retracting token 0 decrements `n_dt[0][0]`. -/
theorem update_params_moves_one_token_witness :
    0 < nDT exS0 0 0 ∧
    nDT (update_params exS0 0 0 (-1)) 0 0 = nDT exS0 0 0 - 1 :=
  ⟨by decide,
    ((update_params_moves_one_token exS0 0 0 (by decide) (by decide)
      (by decide) (by decide) (by decide) (by decide) (by decide)).1
      (by decide)).1⟩

/-! ## C2: the table-to-topic log-weight of the current topic -/

lemma foldl_addsub_eq_sum {α : Type} (l : List α) (f g : α → ℚ) (c : ℚ) :
    l.foldl (fun acc x => acc + f x - g x) c
      = c + (l.map (fun x => f x - g x)).sum := by
  induction l generalizing c with
  | nil => simp
  | cons x xs ih =>
    simp only [List.foldl_cons, List.map_cons, List.sum_cons, ih]
    ring

lemma foldl_add_eq_sum {α : Type} (l : List α) (h : α → ℚ) (c : ℚ) :
    l.foldl (fun acc x => acc + h x) c = c + (l.map h).sum := by
  induction l generalizing c with
  | nil => simp
  | cons x xs ih =>
    simp only [List.foldl_cons, List.map_cons, List.sum_cons, ih]
    ring

/-- **C2**: in the table-to-topic step for table (d,t) with current
topic `k_old = k_dt[d][t]`: if `m_k[k_old] <= 1` the slot of `k_old`
gets the log-weight `-1e500` (float `-inf`), so its exponentiated
probability is (numerically) zero; otherwise its log-weight is
`gammaln(V*eta + n_k[k_old] - n_dt[d][t]) - gammaln(V*eta + n_k[k_old])`
plus, per distinct word-id w on the table,
`gammaln(n_kv[k_old][w] + eta) - gammaln(n_kv[k_old][w] + eta - freq_w)`,
plus `log(m_k[k_old] - 1)`. -/
theorem tableStep_current_topic_weight (lgam lg ex : ℚ → ℚ)
    (s : HDPState) (d t : ℕ) :
    (mK s (kDT s d t) ≤ 1 →
      lpTopic lgam lg s d t (kDT s d t) = LogWeight.negInf ∧
      expW ex (lpTopic lgam lg s d t (kDT s d t)) = 0) ∧
    (1 < mK s (kDT s d t) →
      lpTopic lgam lg s d t (kDT s d t) = LogWeight.val
        (lgam ((s.V : ℚ) * s.eta + (nK s (kDT s d t) : ℚ) - (nDT s d t : ℚ))
          - lgam ((s.V : ℚ) * s.eta + (nK s (kDT s d t) : ℚ))
          + ((tableWords s d t).dedup.map (fun w =>
              lgam ((nKV s (kDT s d t) w : ℚ) + s.eta)
                - lgam ((nKV s (kDT s d t) w : ℚ) + s.eta
                    - ((tableWords s d t).count w : ℚ)))).sum
          + lg ((mK s (kDT s d t) : ℚ) - 1))) := by
  constructor
  · intro h
    simp only [lpTopic]
    rw [if_pos trivial, if_pos h]
    exact ⟨rfl, rfl⟩
  · intro h
    simp only [lpTopic]
    rw [if_pos trivial, if_neg (by omega), foldl_addsub_eq_sum]

/-- Witness for C2 at a concrete state with `m_k[k_old] = 2`, taking
`gammaln` and `log` to be the identity. -/
theorem tableStep_current_topic_weight_witness :
    1 < mK tblState (kDT tblState 0 0) ∧
    lpTopic id id tblState 0 0 (kDT tblState 0 0) = LogWeight.val
      (id ((tblState.V : ℚ) * tblState.eta + (nK tblState (kDT tblState 0 0) : ℚ)
            - (nDT tblState 0 0 : ℚ))
        - id ((tblState.V : ℚ) * tblState.eta + (nK tblState (kDT tblState 0 0) : ℚ))
        + ((tableWords tblState 0 0).dedup.map (fun w =>
            id ((nKV tblState (kDT tblState 0 0) w : ℚ) + tblState.eta)
              - id ((nKV tblState (kDT tblState 0 0) w : ℚ) + tblState.eta
                  - ((tableWords tblState 0 0).count w : ℚ)))).sum
        + id ((mK tblState (kDT tblState 0 0) : ℚ) - 1)) :=
  ⟨by decide,
    (tableStep_current_topic_weight id id id tblState 0 0).2 (by decide)⟩

/-! ## Evaluating the inverse-CDF draw on concrete weight vectors -/

lemma getD_replicate {α : Type} (n i : ℕ) (a d : α) (h : i < n) :
    (List.replicate n a).getD i d = a := by
  induction n generalizing i with
  | zero => omega
  | succ m ih =>
    cases i with
    | zero => rfl
    | succ j => simpa [List.replicate_succ] using ih j (by omega)

lemma cumsum_replicate_zero (n : ℕ) (a x : ℚ) :
    cumsum a (List.replicate n 0 ++ [x]) = List.replicate n a ++ [a + x] := by
  induction n generalizing a with
  | zero => rfl
  | succ m ih =>
    simp only [List.replicate_succ, List.cons_append, cumsum, add_zero]
    exact congrArg (List.cons a) (ih a)

lemma findIdx_replicate_last (n : ℕ) (a b : ℚ) (p : ℚ → Bool)
    (ha : p a = false) (hb : p b = true) :
    (List.replicate n a ++ [b]).findIdx p = n := by
  induction n with
  | zero => simp [List.findIdx_cons, hb]
  | succ m ih =>
    simp [List.replicate_succ, List.findIdx_cons, ha, ih]

/-- On a weight vector that is all zeros except a non-zero final slot,
the inverse-CDF draw with any `0 < u ≤ 1` selects the final slot. -/
lemma selectIndex_last_slot (n : ℕ) (c u : ℚ) (hc : c ≠ 0)
    (hu0 : ¬ u ≤ 0) (hu1 : u ≤ 1) :
    selectIndex (List.replicate n 0 ++ [c]) u = n := by
  simp only [selectIndex]
  have hsum : (List.replicate n (0:ℚ) ++ [c]).sum = c := by
    simp
  rw [hsum]
  have hmap : (List.replicate n (0:ℚ) ++ [c]).map (· / c)
      = List.replicate n 0 ++ [1] := by
    simp [div_self hc]
  rw [hmap, cumsum_replicate_zero]
  simp only [zero_add]
  exact findIdx_replicate_last n 0 1 _ (by simp [hu0]) (by simp [hu1])

/-! ## The 256-topic state: the new-topic draw selects slot 256 -/

set_option maxRecDepth 8192 in
lemma bigState_m_k_retracted :
    (update_params bigState 0 0 (-1)).m_k = List.replicate 256 0 := by
  decide

lemma bigState_topicProbs :
    topicProbs (update_params bigState 0 0 (-1)) 0
      = List.replicate 256 (0:ℚ) ++ [1] := by
  unfold topicProbs
  have hK : (update_params bigState 0 0 (-1)).K = 256 := rfl
  rw [hK]
  congr 1
  · rw [List.eq_replicate_iff]
    refine ⟨by simp, ?_⟩
    intro b hb
    simp only [List.mem_map, List.mem_range] at hb
    obtain ⟨k, hk, rfl⟩ := hb
    have hmk : mK (update_params bigState 0 0 (-1)) k = 0 := by
      unfold mK; rw [bigState_m_k_retracted]
      exact getD_replicate _ _ _ _ hk
    rw [hmk]
    simp
  · have hg : (update_params bigState 0 0 (-1)).gamma = 1 := rfl
    have hv : (update_params bigState 0 0 (-1)).V = 1 := rfl
    rw [hg, hv]
    norm_num

lemma bigState_fNewTotal :
    fNewTotal (update_params bigState 0 0 (-1)) 0 = 1 := by
  unfold fNewTotal
  rw [foldl_add_eq_sum]
  have hK : (update_params bigState 0 0 (-1)).K = 256 := rfl
  rw [hK]
  have hzero : ((List.range 256).map (fun k =>
      (mK (update_params bigState 0 0 (-1)) k : ℚ)
        * (fVec (update_params bigState 0 0 (-1)) 0).getD k 0)).sum = 0 := by
    apply List.sum_eq_zero
    intro x hx
    simp only [List.mem_map, List.mem_range] at hx
    obtain ⟨k, hk, rfl⟩ := hx
    have hmk : mK (update_params bigState 0 0 (-1)) k = 0 := by
      unfold mK; rw [bigState_m_k_retracted]
      exact getD_replicate _ _ _ _ hk
    rw [hmk]
    simp
  rw [hzero]
  have hms : (update_params bigState 0 0 (-1)).m_k.sum = 0 := by
    rw [bigState_m_k_retracted, List.sum_replicate, smul_zero]
  rw [hms]
  have hg : (update_params bigState 0 0 (-1)).gamma = 1 := rfl
  have hv : (update_params bigState 0 0 (-1)).V = 1 := rfl
  rw [hg, hv]
  norm_num

lemma bigState_tableProb :
    tableProb (update_params bigState 0 0 (-1)) 0 0
      = List.replicate 1 (0:ℚ) ++ [1] := by
  unfold tableProb
  have h1 : ((update_params bigState 0 0 (-1)).k_dt.getD 0 []).length = 1 :=
    rfl
  have h0 : ¬ (0 < nDT (update_params bigState 0 0 (-1)) 0 0) := by decide
  have ha : (update_params bigState 0 0 (-1)).alpha = 1 := rfl
  rw [h1]
  simp only [List.range_succ, List.range_zero, List.nil_append, List.map_cons, List.map_nil]
  rw [if_neg h0, ha, bigState_fNewTotal, mul_one]
  rfl

/-- The topic draw of the 256-topic state selects the new-topic slot,
index 256 = K. -/
lemma bigState_topic_draw :
    selectIndex (topicProbs (update_params bigState 0 0 (-1)) 0) (1/2)
      = 256 := by
  rw [bigState_topicProbs]
  exact selectIndex_last_slot 256 1 (1/2) one_ne_zero (by norm_num)
    (by norm_num)

/-- The table draw of the 256-topic state selects the new-table slot,
index 1 = number of tables. -/
lemma bigState_table_draw :
    selectIndex (tableProb (update_params bigState 0 0 (-1)) 0 0) (1/2)
      = 1 := by
  rw [bigState_tableProb]
  exact selectIndex_last_slot 1 1 (1/2) one_ne_zero (by norm_num)
    (by norm_num)

/-! ## Projection lemmas for the word step -/

lemma getD2_setNat2_self (m : List (List ℕ)) (i j a : ℕ)
    (hi : i < m.length) (hj : j < (m.getD i []).length) :
    ((setNat2 m i j a).getD i []).getD j 0 = a := by
  unfold setNat2
  rw [getD_set_self _ _ _ _ hi, getD_set_self _ _ _ _ hj]

lemma getD_append_length {α : Type} (l : List α) (a d : α) :
    (l ++ [a]).getD l.length d = a := by
  induction l with
  | nil => rfl
  | cons x xs ih => simpa using ih

lemma expandTopic_K (s : HDPState) : (expandTopic s).K = s.K + 1 := rfl

lemma expandTopic_n_kv (s : HDPState) :
    (expandTopic s).n_kv = s.n_kv ++ [List.replicate s.V 0] := rfl

lemma expandTopic_n_kd (s : HDPState) :
    (expandTopic s).n_kd = s.n_kd ++ [List.replicate s.D 0] := rfl

lemma expandTopic_m_k (s : HDPState) :
    (expandTopic s).m_k = s.m_k ++ [0] := rfl

lemma update_params_n_kv (s : HDPState) (d i : ℕ) (u : ℤ) :
    (update_params s d i u).n_kv
      = update2 s.n_kv (kDT s d (tDV s d i)) (wordAt s d i) (· + u) := rfl

lemma update_params_n_kd (s : HDPState) (d i : ℕ) (u : ℤ) :
    (update_params s d i u).n_kd
      = update2 s.n_kd (kDT s d (tDV s d i)) d (· + u) := rfl

lemma update_params_m_k_length (s : HDPState) (d i : ℕ) (u : ℤ) :
    (update_params s d i u).m_k.length = s.m_k.length := by
  simp only [update_params]
  repeat' split
  all_goals simp [List.length_set]

lemma update_params_m_k_frame (s : HDPState) (d i : ℕ) (u : ℤ) (j : ℕ)
    (hj : kDT s d (tDV s d i) ≠ j) :
    (update_params s d i u).m_k.getD j 0 = s.m_k.getD j 0 := by
  simp only [update_params]
  repeat' split
  all_goals (repeat rw [getD_set_ne _ _ _ _ _ hj])
  all_goals rfl

/-- The `t_dv` field after a word step records the drawn table index
reduced modulo 256 at position (d,i). -/
lemma wordStep_t_dv (s : HDPState) (d i : ℕ) (u1 u2 : ℚ) :
    (wordStep s d i u1 u2).t_dv
      = setNat2 s.t_dv d i
          (selectIndex (tableProb (update_params s d i (-1)) d
            (wordAt (update_params s d i (-1)) d i)) u1 % 256) := by
  simp only [wordStep]
  split
  · split <;> rfl
  · rfl

/-- The `k_dt` field after a table step that moves table (d,t) to a
different topic records the drawn topic index reduced modulo 256. -/
lemma tableStep_k_dt_set (lgam lg ex : ℚ → ℚ) (s : HDPState) (d t : ℕ)
    (u : ℚ) (hpos : 0 < nDT s d t)
    (hne : selectIndex (topicWeightVec lgam lg ex s d t) u % 256
      ≠ kDT s d t) :
    (tableStep lgam lg ex s d t u).k_dt
      = setNat2 s.k_dt d t
          (selectIndex (topicWeightVec lgam lg ex s d t) u % 256) := by
  simp only [tableStep]
  rw [if_pos hpos, if_pos hne]
  split <;> rfl

/-! ## C10: sampled indices are stored through numpy.uint8 -/

/-- **C10**: every sampled table or topic index is recorded through a
cast to an 8-bit unsigned integer.  The token's recorded table
assignment equals the inverse-CDF-selected index reduced modulo 256; a
reassigned table's recorded topic equals the selected index reduced
modulo 256; and at a state with K = 256 the topic draw selects index
256 while the recorded (cast) value is 0, so the recorded assignment
differs from the selected index. -/
theorem sampled_indices_uint8_cast (s : HDPState) (d i : ℕ) (u1 u2 : ℚ)
    (lgam lg ex : ℚ → ℚ) (s' : HDPState) (d' t' : ℕ) (u' : ℚ) :
    (d < s.t_dv.length → i < (s.t_dv.getD d []).length →
      tDV (wordStep s d i u1 u2) d i
        = selectIndex (tableProb (update_params s d i (-1)) d
            (wordAt (update_params s d i (-1)) d i)) u1 % 256) ∧
    (d' < s'.k_dt.length → t' < (s'.k_dt.getD d' []).length →
      0 < nDT s' d' t' →
      selectIndex (topicWeightVec lgam lg ex s' d' t') u' % 256
          ≠ kDT s' d' t' →
      kDT (tableStep lgam lg ex s' d' t' u') d' t'
        = selectIndex (topicWeightVec lgam lg ex s' d' t') u' % 256) ∧
    (selectIndex (topicProbs (update_params bigState 0 0 (-1)) 0) (1/2)
        = 256 ∧
     selectIndex (topicProbs (update_params bigState 0 0 (-1)) 0) (1/2)
         % 256 = 0) := by
  refine ⟨fun hd hi => ?_, fun hd ht hpos hne => ?_,
    bigState_topic_draw, by rw [bigState_topic_draw]⟩
  · unfold tDV
    rw [wordStep_t_dv]
    exact getD2_setNat2_self _ _ _ _ hd hi
  · unfold kDT
    rw [tableStep_k_dt_set lgam lg ex s' d' t' u' hpos hne]
    exact getD2_setNat2_self _ _ _ _ hd ht

/-! ## C6: growth of K when a new table draws a new topic -/

/-- The state after retracting token (d,i) and recording the drawn
table index in `t_dv` (cgs.py lines 120–150). -/
def recordTableState (s : HDPState) (d i : ℕ) (u1 : ℚ) : HDPState :=
  let s1 := update_params s d i (-1)
  let nt := selectIndex (tableProb s1 d (wordAt s1 d i)) u1 % 256
  { s1 with t_dv := setNat2 s1.t_dv d i nt }

/-- The intermediate state of the new-table branch of the word step
(cgs.py lines 120–160): token (d,i) retracted, the drawn table index
recorded in `t_dv`, and `n_dt[d]`, `k_dt[d]` extended by one empty
slot. -/
def newTableState (s : HDPState) (d i : ℕ) (u1 : ℚ) : HDPState :=
  let s2 := recordTableState s d i u1
  { s2 with n_dt := s2.n_dt.set d (s2.n_dt.getD d [] ++ [0]),
            k_dt := s2.k_dt.set d (s2.k_dt.getD d [] ++ [0]) }

lemma newTableState_n_kv (s : HDPState) (d i : ℕ) (u1 : ℚ) :
    (newTableState s d i u1).n_kv = (update_params s d i (-1)).n_kv := rfl

lemma newTableState_n_kd (s : HDPState) (d i : ℕ) (u1 : ℚ) :
    (newTableState s d i u1).n_kd = (update_params s d i (-1)).n_kd := rfl

lemma newTableState_m_k (s : HDPState) (d i : ℕ) (u1 : ℚ) :
    (newTableState s d i u1).m_k = (update_params s d i (-1)).m_k := rfl

lemma newTableState_V (s : HDPState) (d i : ℕ) (u1 : ℚ) :
    (newTableState s d i u1).V = s.V := rfl

lemma newTableState_D (s : HDPState) (d i : ℕ) (u1 : ℚ) :
    (newTableState s d i u1).D = s.D := rfl

lemma update_params_n_kv_length (s : HDPState) (d i : ℕ) (u : ℤ) :
    (update_params s d i u).n_kv.length = s.n_kv.length := by
  rw [update_params_n_kv]; exact length_update2 _ _ _ _

lemma update_params_n_kd_length (s : HDPState) (d i : ℕ) (u : ℤ) :
    (update_params s d i u).n_kd.length = s.n_kd.length := by
  rw [update_params_n_kd]; exact length_update2 _ _ _ _

/-- When both draws select their final slot (recorded as such), the
word step runs the new-table branch followed by the new-topic
expansion. -/
lemma wordStep_eq_new_branch (s : HDPState) (d i : ℕ) (u1 u2 : ℚ)
    (hTab : selectIndex (tableProb (update_params s d i (-1)) d
        (wordAt (update_params s d i (-1)) d i)) u1 % 256
      = ((update_params s d i (-1)).k_dt.getD d []).length)
    (hTop : selectIndex (topicProbs (update_params s d i (-1))
        (wordAt (update_params s d i (-1)) d i)) u2 % 256
      = (update_params s d i (-1)).K) :
    wordStep s d i u1 u2
      = update_params (expandTopic (newTableState s d i u1)) d i 1 := by
  simp only [wordStep]
  rw [if_pos hTab, if_pos hTop]
  rfl

/-- **C6 (amended)**: whenever the word step's table draw records the
new-table slot and, with K < 256, the topic draw for the fresh table
selects the new-topic slot (index K), K grows by exactly one and
`n_kv`, `n_kd`, `m_k` are each extended by exactly one zero row/entry;
the appended row/entry of index K is still zero at the end of the step
because the token is reseated under the fresh table's placeholder
topic 0. -/
theorem wordStep_new_topic_growth (s : HDPState) (d i : ℕ) (u1 u2 : ℚ)
    (hK1 : 0 < s.K) (hK : s.K < 256)
    (hLkv : s.n_kv.length = s.K) (hLkd : s.n_kd.length = s.K)
    (hLmk : s.m_k.length = s.K)
    (hd3 : d < s.t_dv.length) (hi : i < (s.t_dv.getD d []).length)
    (hd2 : d < s.k_dt.length)
    (hTab : selectIndex (tableProb (update_params s d i (-1)) d
        (wordAt (update_params s d i (-1)) d i)) u1 % 256
      = (s.k_dt.getD d []).length)
    (hTop : selectIndex (topicProbs (update_params s d i (-1))
        (wordAt (update_params s d i (-1)) d i)) u2 = s.K) :
    (wordStep s d i u1 u2).K = s.K + 1 ∧
    (wordStep s d i u1 u2).n_kv.length = s.K + 1 ∧
    (wordStep s d i u1 u2).n_kv.getD s.K [] = List.replicate s.V 0 ∧
    (wordStep s d i u1 u2).n_kd.length = s.K + 1 ∧
    (wordStep s d i u1 u2).n_kd.getD s.K [] = List.replicate s.D 0 ∧
    (wordStep s d i u1 u2).m_k.length = s.K + 1 ∧
    (wordStep s d i u1 u2).m_k.getD s.K 0 = 0 := by
  have hTab' : selectIndex (tableProb (update_params s d i (-1)) d
      (wordAt (update_params s d i (-1)) d i)) u1 % 256
      = ((update_params s d i (-1)).k_dt.getD d []).length := hTab
  have hTop' : selectIndex (topicProbs (update_params s d i (-1))
      (wordAt (update_params s d i (-1)) d i)) u2 % 256
      = (update_params s d i (-1)).K := by
    rw [hTop]; exact Nat.mod_eq_of_lt hK
  have hstep := wordStep_eq_new_branch s d i u1 u2 hTab' hTop'
  have htE : tDV (expandTopic (newTableState s d i u1)) d i
      = (s.k_dt.getD d []).length := by
    unfold tDV
    exact (getD2_setNat2_self s.t_dv d i _ hd3 hi).trans hTab
  have hkE : kDT (expandTopic (newTableState s d i u1)) d
      (tDV (expandTopic (newTableState s d i u1)) d i) = 0 := by
    rw [htE]
    show ((s.k_dt.set d (s.k_dt.getD d [] ++ [0])).getD d []).getD
      (s.k_dt.getD d []).length 0 = 0
    rw [getD_set_self _ _ _ _ hd2, getD_append_length]
  have hkne : kDT (expandTopic (newTableState s d i u1)) d
      (tDV (expandTopic (newTableState s d i u1)) d i) ≠ s.K := by
    rw [hkE]; omega
  have hlkv : (update_params s d i (-1)).n_kv.length = s.K := by
    rw [update_params_n_kv_length, hLkv]
  have hlkd : (update_params s d i (-1)).n_kd.length = s.K := by
    rw [update_params_n_kd_length, hLkd]
  have hlmk : (update_params s d i (-1)).m_k.length = s.K := by
    rw [update_params_m_k_length, hLmk]
  refine ⟨?_, ?_, ?_, ?_, ?_, ?_, ?_⟩
  · rw [hstep, update_params_K, expandTopic_K]
    rfl
  · rw [hstep, update_params_n_kv_length, expandTopic_n_kv,
      List.length_append, newTableState_n_kv, hlkv]
    rfl
  · rw [hstep, update_params_n_kv, getD_update2_ne_row _ _ _ _ _ hkne,
      expandTopic_n_kv, newTableState_n_kv, newTableState_V, ← hlkv,
      getD_append_length]
  · rw [hstep, update_params_n_kd_length, expandTopic_n_kd,
      List.length_append, newTableState_n_kd, hlkd]
    rfl
  · rw [hstep, update_params_n_kd, getD_update2_ne_row _ _ _ _ _ hkne,
      expandTopic_n_kd, newTableState_n_kd, newTableState_D, ← hlkd,
      getD_append_length]
  · rw [hstep, update_params_m_k_length, expandTopic_m_k,
      List.length_append, newTableState_m_k, hlmk]
    rfl
  · rw [hstep, update_params_m_k_frame _ _ _ _ _ hkne,
      expandTopic_m_k, newTableState_m_k, ← hlmk, getD_append_length]

/-- Counterexample to C6 as literally stated ("for every current value
of K"): at the 256-topic state the table draw records the new-table
slot and the topic draw selects the maximal cumulative slot (the
new-topic slot, index K = 256), yet K does not grow: the uint8 cast
turns the selected index 256 into 0, the growth branch is skipped and
K stays 256. -/
theorem wordStep_no_growth_at_K256 :
    selectIndex (tableProb (update_params bigState 0 0 (-1)) 0
        (wordAt (update_params bigState 0 0 (-1)) 0 0)) (1/2) % 256
      = (bigState.k_dt.getD 0 []).length ∧
    selectIndex (topicProbs (update_params bigState 0 0 (-1))
        (wordAt (update_params bigState 0 0 (-1)) 0 0)) (1/2)
      = bigState.K ∧
    (wordStep bigState 0 0 (1/2) (1/2)).K = 256 := by
  have hw : wordAt (update_params bigState 0 0 (-1)) 0 0 = 0 := rfl
  have h1 : selectIndex (tableProb (update_params bigState 0 0 (-1)) 0
      (wordAt (update_params bigState 0 0 (-1)) 0 0)) (1/2) = 1 := by
    rw [hw]; exact bigState_table_draw
  have h2 : selectIndex (topicProbs (update_params bigState 0 0 (-1))
      (wordAt (update_params bigState 0 0 (-1)) 0 0)) (1/2) = 256 := by
    rw [hw]; exact bigState_topic_draw
  refine ⟨by rw [h1]; rfl, by rw [h2]; rfl, ?_⟩
  have hc1 : selectIndex (tableProb (update_params bigState 0 0 (-1)) 0
      (wordAt (update_params bigState 0 0 (-1)) 0 0)) (1/2) % 256
      = ((update_params bigState 0 0 (-1)).k_dt.getD 0 []).length := by
    rw [h1]; rfl
  have hc2 : ¬ (selectIndex (topicProbs (update_params bigState 0 0 (-1))
      (wordAt (update_params bigState 0 0 (-1)) 0 0)) (1/2) % 256
      = (update_params bigState 0 0 (-1)).K) := by
    rw [h2]; decide
  simp only [wordStep]
  rw [if_pos hc1, if_neg hc2]
  rfl

lemma newState_m_k_retracted :
    (update_params newState 0 0 (-1)).m_k = [0] := by decide

lemma newState_fNewTotal :
    fNewTotal (update_params newState 0 0 (-1)) 0 = 1 := by
  unfold fNewTotal
  rw [foldl_add_eq_sum]
  have hK : (update_params newState 0 0 (-1)).K = 1 := rfl
  rw [hK]
  simp only [List.range_succ, List.range_zero, List.nil_append,
    List.map_cons, List.map_nil]
  have hm : mK (update_params newState 0 0 (-1)) 0 = 0 := by decide
  rw [hm, newState_m_k_retracted]
  have hg : (update_params newState 0 0 (-1)).gamma = 1 := rfl
  have hv : (update_params newState 0 0 (-1)).V = 1 := rfl
  rw [hg, hv]
  norm_num

lemma newState_topicProbs :
    topicProbs (update_params newState 0 0 (-1)) 0
      = List.replicate 1 (0:ℚ) ++ [1] := by
  unfold topicProbs
  have hK : (update_params newState 0 0 (-1)).K = 1 := rfl
  rw [hK]
  simp only [List.range_succ, List.range_zero, List.nil_append,
    List.map_cons, List.map_nil]
  have hm : mK (update_params newState 0 0 (-1)) 0 = 0 := by decide
  rw [hm]
  have hg : (update_params newState 0 0 (-1)).gamma = 1 := rfl
  have hv : (update_params newState 0 0 (-1)).V = 1 := rfl
  rw [hg, hv]
  norm_num [List.replicate]

lemma newState_tableProb :
    tableProb (update_params newState 0 0 (-1)) 0 0
      = List.replicate 1 (0:ℚ) ++ [1] := by
  unfold tableProb
  have h1 : ((update_params newState 0 0 (-1)).k_dt.getD 0 []).length = 1 :=
    rfl
  have h0 : ¬ (0 < nDT (update_params newState 0 0 (-1)) 0 0) := by decide
  have ha : (update_params newState 0 0 (-1)).alpha = 1 := rfl
  rw [h1]
  simp only [List.range_succ, List.range_zero, List.nil_append,
    List.map_cons, List.map_nil]
  rw [if_neg h0, ha, newState_fNewTotal, mul_one]
  rfl

lemma newState_table_draw :
    selectIndex (tableProb (update_params newState 0 0 (-1)) 0 0) (1/2)
      = 1 := by
  rw [newState_tableProb]
  exact selectIndex_last_slot 1 1 (1/2) one_ne_zero (by norm_num)
    (by norm_num)

lemma newState_topic_draw :
    selectIndex (topicProbs (update_params newState 0 0 (-1)) 0) (1/2)
      = 1 := by
  rw [newState_topicProbs]
  exact selectIndex_last_slot 1 1 (1/2) one_ne_zero (by norm_num)
    (by norm_num)

lemma newState_hTab :
    selectIndex (tableProb (update_params newState 0 0 (-1)) 0
        (wordAt (update_params newState 0 0 (-1)) 0 0)) (1/2) % 256
      = (newState.k_dt.getD 0 []).length := by
  rw [show wordAt (update_params newState 0 0 (-1)) 0 0 = 0 from rfl,
    newState_table_draw]
  rfl

lemma newState_hTop :
    selectIndex (topicProbs (update_params newState 0 0 (-1))
        (wordAt (update_params newState 0 0 (-1)) 0 0)) (1/2)
      = newState.K := by
  rw [show wordAt (update_params newState 0 0 (-1)) 0 0 = 0 from rfl,
    newState_topic_draw]
  rfl

/-- Witness for C6 at the one-token state: both draws select their
final slot and K grows from 1 to 2. -/
theorem wordStep_new_topic_growth_witness :
    (0 < newState.K ∧ newState.K < 256 ∧
     selectIndex (tableProb (update_params newState 0 0 (-1)) 0
        (wordAt (update_params newState 0 0 (-1)) 0 0)) (1/2) % 256
       = (newState.k_dt.getD 0 []).length ∧
     selectIndex (topicProbs (update_params newState 0 0 (-1))
        (wordAt (update_params newState 0 0 (-1)) 0 0)) (1/2)
       = newState.K) ∧
    (wordStep newState 0 0 (1/2) (1/2)).K = newState.K + 1 :=
  ⟨⟨by decide, by decide, newState_hTab, newState_hTop⟩,
    (wordStep_new_topic_growth newState 0 0 (1/2) (1/2) (by decide)
      (by decide) (by decide) (by decide) (by decide) (by decide)
      (by decide) (by decide) newState_hTab newState_hTop).1⟩

/-! ## C5: conservation of sum(n_dt[d]) -/

lemma update_params_n_dt (s : HDPState) (d i : ℕ) (u : ℤ) :
    (update_params s d i u).n_dt
      = update2 s.n_dt d (tDV s d i) (· + u) := rfl

lemma expandTopic_n_dt (s : HDPState) : (expandTopic s).n_dt = s.n_dt := rfl

lemma expandTopic_t_dv (s : HDPState) : (expandTopic s).t_dv = s.t_dv := rfl

lemma if_expandTopic_n_dt (c : Prop) [Decidable c] (x : HDPState) :
    (if c then expandTopic x else x).n_dt = x.n_dt := by
  split <;> rfl

lemma if_expandTopic_t_dv (c : Prop) [Decidable c] (x : HDPState) :
    (if c then expandTopic x else x).t_dv = x.t_dv := by
  split <;> rfl

lemma sum_update2_add (m : List (List ℤ)) (d t : ℕ) (u : ℤ)
    (hd : d < m.length) (ht : t < (m.getD d []).length) :
    ((update2 m d t (· + u)).getD d []).sum = (m.getD d []).sum + u := by
  unfold update2
  rw [getD_set_self _ _ _ _ hd]
  exact sum_set_add _ _ _ ht

lemma update2_row_length (m : List (List ℤ)) (d t : ℕ) (f : ℤ → ℤ)
    (hd : d < m.length) :
    ((update2 m d t f).getD d []).length = (m.getD d []).length := by
  unfold update2
  rw [getD_set_self _ _ _ _ hd]
  exact List.length_set _ _ _

lemma getD_update2_other (m : List (List ℤ)) (d t : ℕ) (f : ℤ → ℤ)
    (d' : ℕ) (hne : d ≠ d') :
    (update2 m d t f).getD d' [] = m.getD d' [] := by
  unfold update2
  exact getD_set_ne _ _ _ _ _ hne

lemma cumsum_length (a : ℚ) (l : List ℚ) :
    (cumsum a l).length = l.length := by
  induction l generalizing a with
  | nil => rfl
  | cons x xs ih => simp [cumsum, ih]

lemma cumsum_last (l : List ℚ) (a : ℚ) (h : l ≠ []) :
    (cumsum a l).getD (l.length - 1) 0 = a + l.sum := by
  induction l generalizing a with
  | nil => exact absurd rfl h
  | cons x xs ih =>
    cases xs with
    | nil => simp [cumsum]
    | cons y ys =>
      have hidx : (x :: y :: ys).length - 1 = (y :: ys).length - 1 + 1 :=
        rfl
      rw [hidx]
      show ((a + x) :: cumsum (a + x) (y :: ys)).getD
        ((y :: ys).length - 1 + 1) 0 = a + (x :: y :: ys).sum
      rw [List.getD_cons_succ, ih (a + x) (by simp)]
      simp only [List.sum_cons]
      ring

lemma sum_map_div (l : List ℚ) (c : ℚ) :
    (l.map (· / c)).sum = l.sum / c := by
  induction l with
  | nil => simp
  | cons x xs ih =>
    simp only [List.map_cons, List.sum_cons, ih]
    ring

lemma findIdx_le_of_getD (l : List ℚ) (p : ℚ → Bool) (j : ℕ)
    (hj : j < l.length) (hp : p (l.getD j 0) = true) :
    l.findIdx p ≤ j := by
  induction l generalizing j with
  | nil => simp at hj
  | cons x xs ih =>
    rw [List.findIdx_cons]
    by_cases hx : p x
    · simp [hx]
    · cases j with
      | zero =>
        simp only [List.getD_cons_zero] at hp
        exact absurd hp hx
      | succ m =>
        simp only [hx, Bool.false_eq_true, if_false, cond_false]
        have := ih m (Nat.lt_of_succ_lt_succ hj) hp
        omega

/-- On a weight vector with positive total mass and a draw `u ≤ 1` the
inverse-CDF selection is in range. -/
lemma selectIndex_lt_length (w : List ℚ) (u : ℚ) (hw : 0 < w.sum)
    (hu : u ≤ 1) : selectIndex w u < w.length := by
  have hne : w ≠ [] := by
    intro h
    rw [h] at hw
    simp at hw
  simp only [selectIndex]
  have hmapne : w.map (· / w.sum) ≠ [] := by simp [hne]
  have hlast : (cumsum 0 (w.map (· / w.sum))).getD
      ((w.map (· / w.sum)).length - 1) 0 = 1 := by
    rw [cumsum_last _ _ hmapne, sum_map_div, div_self (ne_of_gt hw),
      zero_add]
  have hpos : 0 < w.length := List.length_pos.2 hne
  have hb : (w.map (· / w.sum)).length - 1
      < (cumsum 0 (w.map (· / w.sum))).length := by
    rw [cumsum_length, List.length_map]
    omega
  have hfi := findIdx_le_of_getD (cumsum 0 (w.map (· / w.sum)))
      (fun c => decide (u ≤ c)) _ hb (by rw [hlast]; simpa using hu)
  have : (w.map (· / w.sum)).length - 1 < w.length := by
    rw [List.length_map]; omega
  omega

lemma tableProb_length (s : HDPState) (d v : ℕ) :
    (tableProb s d v).length = (s.k_dt.getD d []).length + 1 := by
  simp [tableProb]

lemma getD_range_map {β : Type} (n i : ℕ) (f : ℕ → β) (x : β)
    (h : i < n) : ((List.range n).map f).getD i x = f i := by
  have h1 : i < ((List.range n).map f).length := by simpa using h
  rw [List.getD_eq_getElem _ _ h1, List.getElem_map, List.getElem_range]

lemma getD_map_of_lt {α β : Type} (l : List α) (f : α → β) (i : ℕ)
    (x : β) (dflt : α) (h : i < l.length) :
    (l.map f).getD i x = f (l.getD i dflt) := by
  induction l generalizing i with
  | nil => simp at h
  | cons a l' ih =>
    cases i with
    | zero => rfl
    | succ m => simpa using ih m (Nat.lt_of_succ_lt_succ h)

lemma filter_range_getD_map (l : List ℤ) (p : ℤ → Bool) :
    ((List.range l.length).filter (fun i => p (l.getD i 0))).map
        (fun i => l.getD i 0)
      = l.filter p := by
  induction l with
  | nil => rfl
  | cons a l' ih =>
    rw [List.length_cons, List.range_succ_eq_map, List.filter_cons]
    simp only [List.getD_cons_zero]
    by_cases hpa : p a
    · simp only [hpa, if_true, List.map_cons, List.filter_map,
        List.map_map]
      simp only [Function.comp_def, List.getD_cons_succ]
      rw [ih, List.filter_cons, hpa]
      simp
    · simp only [hpa, Bool.false_eq_true, if_false, List.filter_map,
        List.map_map]
      simp only [Function.comp_def, List.getD_cons_succ]
      rw [ih, List.filter_cons, if_neg hpa]

lemma sum_filter_ne_zero (l : List ℤ) :
    (l.filter (fun x => decide (x ≠ 0))).sum = l.sum := by
  induction l with
  | nil => rfl
  | cons x xs ih =>
    by_cases hx : x = 0
    · rw [List.filter_cons, if_neg (by simp [hx]), ih, List.sum_cons, hx,
        zero_add]
    · rw [List.filter_cons, if_pos (by simp [hx]), List.sum_cons, ih,
        List.sum_cons]

lemma compact_params_n_dt_row (s : HDPState) (d : ℕ) (hd : d < s.D) :
    (compact_params s).n_dt.getD d []
      = (s.n_dt.getD d []).filter (fun x => decide (x ≠ 0)) := by
  show ((List.range s.D).map _).getD d [] = _
  rw [getD_range_map _ _ _ _ hd]
  exact filter_range_getD_map (s.n_dt.getD d []) (fun x => decide (x ≠ 0))

lemma recordTableState_n_dt (s : HDPState) (d i : ℕ) (u1 : ℚ) :
    (recordTableState s d i u1).n_dt = (update_params s d i (-1)).n_dt :=
  rfl

lemma newTableState_n_dt (s : HDPState) (d i : ℕ) (u1 : ℚ) :
    (newTableState s d i u1).n_dt
      = (update_params s d i (-1)).n_dt.set d
          ((update_params s d i (-1)).n_dt.getD d [] ++ [0]) := rfl

/-- In the new-table branch the word step's `n_dt` is that of reseating
on the extended state, whichever topic is drawn. -/
lemma wordStep_n_dt_new_branch (s : HDPState) (d i : ℕ) (u1 u2 : ℚ)
    (hc : selectIndex (tableProb (update_params s d i (-1)) d
        (wordAt (update_params s d i (-1)) d i)) u1 % 256
      = ((update_params s d i (-1)).k_dt.getD d []).length) :
    (wordStep s d i u1 u2).n_dt
      = (update_params (newTableState s d i u1) d i 1).n_dt := by
  simp only [wordStep]
  rw [if_pos hc]
  split <;> rfl

/-- In the existing-table branch the word step's `n_dt` is that of
reseating on the recorded state. -/
lemma wordStep_n_dt_old_branch (s : HDPState) (d i : ℕ) (u1 u2 : ℚ)
    (hc : ¬ (selectIndex (tableProb (update_params s d i (-1)) d
        (wordAt (update_params s d i (-1)) d i)) u1 % 256
      = ((update_params s d i (-1)).k_dt.getD d []).length)) :
    (wordStep s d i u1 u2).n_dt
      = (update_params (recordTableState s d i u1) d i 1).n_dt := by
  simp only [wordStep]
  rw [if_neg hc]
  rfl

/-- Counterexample to C5 as stated ("at every point in time ...
including immediately after a retraction"): right after retracting
token 0 of the scenario corpus, `sum(n_dt[0])` is 4 while
`len(documents[0])` is 5. -/
theorem retraction_breaks_conservation :
    ((update_params exS0 0 0 (-1)).n_dt.getD 0 []).sum = 4 ∧
    (exS0.corpus.getD 0 []).length = 5 ∧
    ((update_params exS0 0 0 (-1)).n_dt.getD 0 []).sum
      ≠ ((exS0.corpus.getD 0 []).length : ℤ) :=
  ⟨by decide, by decide, by decide⟩

/-- **C5 (amended)**: `sum(n_dt[d]) == len(documents[d])` holds after
initialization and is preserved by every complete word-to-table step
(for every document), by every table-to-topic pass and by compaction;
but immediately after a retraction the retracted document's sum is
`len(documents[d]) - 1`: the invariant is transiently violated between
a token's retraction and its reseating. -/
theorem n_dt_conservation (s : HDPState) (d i : ℕ) (u1 u2 : ℚ)
    (lgam lg ex : ℚ → ℚ) (ts : List (ℕ × ℚ)) (dd : ℕ)
    (corpus : List (List ℕ)) (K : ℕ) (al ga et : ℚ) (d0 : ℕ)
    (hd : d < s.n_dt.length)
    (ht : tDV s d i < (s.n_dt.getD d []).length)
    (hd3 : d < s.t_dv.length) (hi : i < (s.t_dv.getD d []).length)
    (hpar : (s.k_dt.getD d []).length = (s.n_dt.getD d []).length)
    (hw : 0 < (tableProb (update_params s d i (-1)) d
        (wordAt (update_params s d i (-1)) d i)).sum)
    (hu : u1 ≤ 1) (hd0 : d0 < corpus.length) :
    ((update_params s d i (-1)).n_dt.getD d []).sum
        = (s.n_dt.getD d []).sum - 1 ∧
    (∀ d', ((wordStep s d i u1 u2).n_dt.getD d' []).sum
        = (s.n_dt.getD d' []).sum) ∧
    (tableSweep lgam lg ex s dd ts).n_dt = s.n_dt ∧
    (∀ d'', d'' < s.D →
      ((compact_params s).n_dt.getD d'' []).sum
        = (s.n_dt.getD d'' []).sum) ∧
    ((initializeState corpus K al ga et).n_dt.getD d0 []).sum
        = ((corpus.getD d0 []).length : ℤ) := by
  have hretract : ((update_params s d i (-1)).n_dt.getD d []).sum
      = (s.n_dt.getD d []).sum - 1 := by
    rw [update_params_n_dt, sum_update2_add _ _ _ _ hd ht]
    ring
  have hs1len : (update_params s d i (-1)).n_dt.length = s.n_dt.length := by
    rw [update_params_n_dt]
    exact length_update2 _ _ _ _
  have hs1row : ((update_params s d i (-1)).n_dt.getD d []).length
      = (s.n_dt.getD d []).length := by
    rw [update_params_n_dt]
    exact update2_row_length _ _ _ _ hd
  have hnt : tDV (recordTableState s d i u1) d i
      = selectIndex (tableProb (update_params s d i (-1)) d
          (wordAt (update_params s d i (-1)) d i)) u1 % 256 := by
    unfold tDV
    exact getD2_setNat2_self s.t_dv d i _ hd3 hi
  refine ⟨hretract, ?_, (tableSweep_fields lgam lg ex s dd ts).1,
    fun d'' h => ?_, ?_⟩
  · intro d'
    by_cases hdd' : d = d'
    · subst hdd'
      by_cases hc : selectIndex (tableProb (update_params s d i (-1)) d
          (wordAt (update_params s d i (-1)) d i)) u1 % 256
        = ((update_params s d i (-1)).k_dt.getD d []).length
      · -- new-table branch: the reseat lands on the appended slot
        have hLk : ((update_params s d i (-1)).k_dt.getD d []).length
            = (s.k_dt.getD d []).length := rfl
        have hrowN : (newTableState s d i u1).n_dt.getD d []
            = (update_params s d i (-1)).n_dt.getD d [] ++ [0] := by
          rw [newTableState_n_dt]
          exact getD_set_self _ _ _ _ (by rw [hs1len]; exact hd)
        have hdN : d < (newTableState s d i u1).n_dt.length := by
          rw [newTableState_n_dt, List.length_set, hs1len]
          exact hd
        have htN : tDV (newTableState s d i u1) d i
            < ((newTableState s d i u1).n_dt.getD d []).length := by
          rw [hrowN, List.length_append]
          have : tDV (newTableState s d i u1) d i
              = (s.k_dt.getD d []).length := by
            unfold tDV
            exact (getD2_setNat2_self s.t_dv d i _ hd3 hi).trans
              (hc.trans hLk)
          rw [this, hpar, hs1row]
          simp
        rw [wordStep_n_dt_new_branch s d i u1 u2 hc, update_params_n_dt,
          sum_update2_add _ _ _ _ hdN htN, hrowN, List.sum_append,
          hretract]
        simp
      · -- existing-table branch: the reseat lands on an existing table
        have hsel : selectIndex (tableProb (update_params s d i (-1)) d
            (wordAt (update_params s d i (-1)) d i)) u1
            < (tableProb (update_params s d i (-1)) d
                (wordAt (update_params s d i (-1)) d i)).length :=
          selectIndex_lt_length _ _ hw hu
        rw [tableProb_length] at hsel
        have hdR : d < (recordTableState s d i u1).n_dt.length := by
          rw [recordTableState_n_dt, hs1len]
          exact hd
        have htR : tDV (recordTableState s d i u1) d i
            < ((recordTableState s d i u1).n_dt.getD d []).length := by
          rw [recordTableState_n_dt, hs1row, hnt, ← hpar]
          have hmod : selectIndex (tableProb (update_params s d i (-1)) d
              (wordAt (update_params s d i (-1)) d i)) u1 % 256
              ≤ selectIndex (tableProb (update_params s d i (-1)) d
                (wordAt (update_params s d i (-1)) d i)) u1 :=
            Nat.mod_le _ _
          have hne : selectIndex (tableProb (update_params s d i (-1)) d
              (wordAt (update_params s d i (-1)) d i)) u1 % 256
              ≠ ((update_params s d i (-1)).k_dt.getD d []).length := hc
          have hLk : ((update_params s d i (-1)).k_dt.getD d []).length
              = (s.k_dt.getD d []).length := rfl
          rw [hLk] at hne
          omega
        rw [wordStep_n_dt_old_branch s d i u1 u2 hc, update_params_n_dt,
          sum_update2_add _ _ _ _ hdR htR, recordTableState_n_dt,
          hretract]
        ring
    · -- other documents are untouched
      have hrow : (wordStep s d i u1 u2).n_dt.getD d' []
          = s.n_dt.getD d' [] := by
        by_cases hc : selectIndex (tableProb (update_params s d i (-1)) d
            (wordAt (update_params s d i (-1)) d i)) u1 % 256
          = ((update_params s d i (-1)).k_dt.getD d []).length
        · rw [wordStep_n_dt_new_branch s d i u1 u2 hc, update_params_n_dt,
            getD_update2_other _ _ _ _ _ hdd', newTableState_n_dt,
            getD_set_ne _ _ _ _ _ hdd', update_params_n_dt,
            getD_update2_other _ _ _ _ _ hdd']
        · rw [wordStep_n_dt_old_branch s d i u1 u2 hc, update_params_n_dt,
            getD_update2_other _ _ _ _ _ hdd', recordTableState_n_dt,
            update_params_n_dt, getD_update2_other _ _ _ _ _ hdd']
      rw [hrow]
  · rw [compact_params_n_dt_row s d'' h, sum_filter_ne_zero]
  · show ((corpus.map fun doc => [(doc.length : ℤ)]).getD d0 []).sum = _
    rw [getD_map_of_lt _ _ _ _ [] hd0]
    simp

lemma newState_tableProb_sum_pos :
    0 < (tableProb (update_params newState 0 0 (-1)) 0
        (wordAt (update_params newState 0 0 (-1)) 0 0)).sum := by
  rw [show wordAt (update_params newState 0 0 (-1)) 0 0 = 0 from rfl,
    newState_tableProb]
  norm_num

/-- Witness for C5 at the one-token state: all hypotheses hold and the
retraction equation is realized. -/
theorem n_dt_conservation_witness :
    (0 < newState.n_dt.length ∧
     tDV newState 0 0 < (newState.n_dt.getD 0 []).length ∧
     (newState.k_dt.getD 0 []).length = (newState.n_dt.getD 0 []).length) ∧
    ((update_params newState 0 0 (-1)).n_dt.getD 0 []).sum
      = (newState.n_dt.getD 0 []).sum - 1 :=
  ⟨⟨by decide, by decide, by decide⟩,
    (n_dt_conservation newState 0 0 (1/2) (1/2) id id id [] 0 [[0]] 1 1 1
      1 0 (by decide) (by decide) (by decide) (by decide) (by decide)
      newState_tableProb_sum_pos (by norm_num) (by decide)).1⟩

/-! ## C1: the word-to-table weights -/

lemma getD_append_of_lt {α : Type} (l l2 : List α) (i : ℕ) (x : α)
    (h : i < l.length) : (l ++ l2).getD i x = l.getD i x := by
  induction l generalizing i with
  | nil => simp at h
  | cons a l' ih =>
    cases i with
    | zero => rfl
    | succ m => simpa using ih m (Nat.lt_of_succ_lt_succ h)

lemma getD_append_map_range_length {β : Type} (n : ℕ) (g : ℕ → β)
    (a x : β) : (((List.range n).map g) ++ [a]).getD n x = a := by
  have hlen : ((List.range n).map g).length = n := by simp
  calc (((List.range n).map g) ++ [a]).getD n x
      = (((List.range n).map g) ++ [a]).getD
          ((List.range n).map g).length x := by rw [hlen]
    _ = a := getD_append_length _ _ _

/-- **C1**: in the word-to-table resampling step, after token (d,i)
with word-id v has been retracted, the unnormalized sampling weight of
each existing table t of document d equals `n_dt[d][t] * f_k` for
`k = k_dt[d][t]` with
`f_k = (n_kv[k][v] + eta) / (sum n_kv[k] + V*eta)` computed on the
retracted counts (zero weight when `n_dt[d][t] == 0`), and the extra
new-table slot weighs
`alpha * (gamma/V + sum_k m_k[k]*f_k) / (sum(m_k) + gamma)`. -/
theorem tableProb_weights (s0 : HDPState) (d i t : ℕ)
    (ht : t < ((update_params s0 d i (-1)).k_dt.getD d []).length)
    (hk : kDT (update_params s0 d i (-1)) d t
      < (update_params s0 d i (-1)).K)
    (hn : 0 ≤ nDT (update_params s0 d i (-1)) d t) :
    (tableProb (update_params s0 d i (-1)) d
        (wordAt (update_params s0 d i (-1)) d i)).getD t 0
      = (nDT (update_params s0 d i (-1)) d t : ℚ) *
          (((nKV (update_params s0 d i (-1))
              (kDT (update_params s0 d i (-1)) d t)
              (wordAt (update_params s0 d i (-1)) d i) : ℚ)
            + (update_params s0 d i (-1)).eta)
          / ((((update_params s0 d i (-1)).n_kv.getD
                (kDT (update_params s0 d i (-1)) d t) []).sum : ℚ)
            + ((update_params s0 d i (-1)).V : ℚ)
              * (update_params s0 d i (-1)).eta)) ∧
    (tableProb (update_params s0 d i (-1)) d
        (wordAt (update_params s0 d i (-1)) d i)).getD
        ((update_params s0 d i (-1)).k_dt.getD d []).length 0
      = (update_params s0 d i (-1)).alpha *
          (((update_params s0 d i (-1)).gamma
              / ((update_params s0 d i (-1)).V : ℚ)
            + ((List.range (update_params s0 d i (-1)).K).map (fun k =>
                (mK (update_params s0 d i (-1)) k : ℚ) *
                  (((nKV (update_params s0 d i (-1)) k
                      (wordAt (update_params s0 d i (-1)) d i) : ℚ)
                    + (update_params s0 d i (-1)).eta)
                  / ((((update_params s0 d i (-1)).n_kv.getD k []).sum : ℚ)
                    + ((update_params s0 d i (-1)).V : ℚ)
                      * (update_params s0 d i (-1)).eta)))).sum)
          / (((update_params s0 d i (-1)).m_k.sum : ℚ)
            + (update_params s0 d i (-1)).gamma)) := by
  set s := update_params s0 d i (-1) with hsdef
  set v := wordAt s d i with hvdef
  have hfk : ∀ k, k < s.K → (fVec s v).getD k 0
      = ((nKV s k v : ℚ) + s.eta)
        / (((s.n_kv.getD k []).sum : ℚ) + (s.V : ℚ) * s.eta) := by
    intro k hklt
    unfold fVec
    rw [getD_range_map _ _ _ _ hklt]
    rfl
  constructor
  · unfold tableProb
    rw [getD_append_of_lt _ _ _ _ (by simpa using ht),
      getD_range_map _ _ _ _ ht, hfk _ hk]
    by_cases hpos : 0 < nDT s d t
    · rw [if_pos hpos, mul_comm]
    · rw [if_neg hpos]
      have h0 : nDT s d t = 0 := le_antisymm (not_lt.1 hpos) hn
      rw [h0]
      simp
  · unfold tableProb
    rw [getD_append_map_range_length]
    unfold fNewTotal
    rw [foldl_add_eq_sum]
    have hmap : (List.range s.K).map (fun k =>
        (mK s k : ℚ) * (fVec s v).getD k 0)
        = (List.range s.K).map (fun k => (mK s k : ℚ) *
            (((nKV s k v : ℚ) + s.eta)
              / (((s.n_kv.getD k []).sum : ℚ) + (s.V : ℚ) * s.eta))) := by
      apply List.map_congr_left
      intro k hkmem
      rw [hfk k (List.mem_range.1 hkmem)]
    rw [hmap]

/-- Witness for C1 at the scenario state after retracting token 0. -/
theorem tableProb_weights_witness :
    (0 < ((update_params exS0 0 0 (-1)).k_dt.getD 0 []).length ∧
     kDT (update_params exS0 0 0 (-1)) 0 0
       < (update_params exS0 0 0 (-1)).K ∧
     0 ≤ nDT (update_params exS0 0 0 (-1)) 0 0) ∧
    (tableProb (update_params exS0 0 0 (-1)) 0
        (wordAt (update_params exS0 0 0 (-1)) 0 0)).getD 0 0
      = (nDT (update_params exS0 0 0 (-1)) 0 0 : ℚ) *
          (((nKV (update_params exS0 0 0 (-1))
              (kDT (update_params exS0 0 0 (-1)) 0 0)
              (wordAt (update_params exS0 0 0 (-1)) 0 0) : ℚ)
            + (update_params exS0 0 0 (-1)).eta)
          / ((((update_params exS0 0 0 (-1)).n_kv.getD
                (kDT (update_params exS0 0 0 (-1)) 0 0) []).sum : ℚ)
            + ((update_params exS0 0 0 (-1)).V : ℚ)
              * (update_params exS0 0 0 (-1)).eta)) :=
  ⟨⟨by decide, by decide, by decide⟩,
    (tableProb_weights exS0 0 0 0 (by decide) (by decide) (by decide)).1⟩

/-! ## C7: initialization seats everything on table 0 of topic 0 -/

lemma foldl_triple {A B C α : Type} (l : List α) (F1 : A → α → A)
    (F2 : B → α → B) (F3 : C → α → C) (a : A) (b : B) (c : C) :
    l.foldl (fun acc d => (F1 acc.1 d, F2 acc.2.1 d, F3 acc.2.2 d))
        (a, b, c) = (l.foldl F1 a, l.foldl F2 b, l.foldl F3 c) := by
  induction l generalizing a b c with
  | nil => rfl
  | cons x xs ih => exact ih (F1 a x) (F2 b x) (F3 c x)

/-- `initStats` decomposes into three independent folds. -/
lemma initStats_split (corpus : List (List ℕ)) (V K : ℕ) :
    initStats corpus V K
      = ((List.range corpus.length).foldl
            (fun m d => (corpus.getD d []).foldl
              (fun m2 v => update2 m2 0 v (· + 1)) m)
            (List.replicate K (List.replicate V 0)),
         (List.range corpus.length).foldl
            (fun m d => update2 m 0 d
              (fun _ => ((corpus.getD d []).length : ℤ)))
            (List.replicate K (List.replicate corpus.length 0)),
         (List.range corpus.length).foldl
            (fun m _ => m.set 0 (m.getD 0 0 + 1))
            (List.replicate K 0)) := by
  unfold initStats
  exact foldl_triple (List.range corpus.length)
    (fun (m : List (List ℤ)) d => (corpus.getD d []).foldl
      (fun m2 v => update2 m2 0 v (· + 1)) m)
    (fun (m : List (List ℤ)) d =>
      update2 m 0 d (fun _ => ((corpus.getD d []).length : ℤ)))
    (fun (m : List ℤ) _ => m.set 0 (m.getD 0 0 + 1)) _ _ _

lemma initStats_fst (corpus : List (List ℕ)) (V K : ℕ) :
    (initStats corpus V K).1
      = (List.range corpus.length).foldl
          (fun m d => (corpus.getD d []).foldl
            (fun m2 v => update2 m2 0 v (· + 1)) m)
          (List.replicate K (List.replicate V 0)) := by
  rw [initStats_split]

lemma initStats_snd (corpus : List (List ℕ)) (V K : ℕ) :
    (initStats corpus V K).2.1
      = (List.range corpus.length).foldl
          (fun m d => update2 m 0 d
            (fun _ => ((corpus.getD d []).length : ℤ)))
          (List.replicate K (List.replicate corpus.length 0)) := by
  rw [initStats_split]

lemma initStats_thd (corpus : List (List ℕ)) (V K : ℕ) :
    (initStats corpus V K).2.2
      = (List.range corpus.length).foldl
          (fun m _ => m.set 0 (m.getD 0 0 + 1))
          (List.replicate K 0) := by
  rw [initStats_split]

lemma foldl_set0_singleton {α : Type} (l : List α) (x : ℤ) :
    (l.foldl (fun m _ => m.set 0 (m.getD 0 0 + 1)) [x])
      = [x + l.length] := by
  induction l generalizing x with
  | nil => simp
  | cons y ys ih =>
    show (ys.foldl _ [x + 1]) = _
    rw [ih (x + 1)]
    simp only [List.length_cons]
    congr 1
    push_cast
    ring

lemma foldl_update2_row0 (l : List ℕ) (r : List ℤ) (g : ℕ → ℤ) :
    (l.foldl (fun m d => update2 m 0 d (fun _ => g d)) [r])
      = [l.foldl (fun r2 d => r2.set d (g d)) r] := by
  induction l generalizing r with
  | nil => rfl
  | cons x xs ih => exact ih (r.set x (g x))

lemma foldl_update2_row0_tokens (l : List ℕ) (r : List ℤ) :
    (l.foldl (fun m v => update2 m 0 v (· + 1)) [r])
      = [l.foldl (fun r2 v => r2.set v (r2.getD v 0 + 1)) r] := by
  induction l generalizing r with
  | nil => rfl
  | cons x xs ih => exact ih (r.set x (r.getD x 0 + 1))

lemma foldl_set_length (l : List ℕ) (r : List ℤ) (g : ℕ → ℤ) :
    (l.foldl (fun r2 d => r2.set d (g d)) r).length = r.length := by
  induction l generalizing r with
  | nil => rfl
  | cons x xs ih => rw [List.foldl_cons, ih, List.length_set]

lemma foldl_set_range_getD (n : ℕ) (r : List ℤ) (g : ℕ → ℤ) (d : ℕ)
    (hd : d < n) (hn : n ≤ r.length) :
    ((List.range n).foldl (fun r2 j => r2.set j (g j)) r).getD d 0
      = g d := by
  induction n generalizing d with
  | zero => omega
  | succ m ih =>
    rw [List.range_succ, List.foldl_append, List.foldl_cons,
      List.foldl_nil]
    rcases Nat.lt_or_ge d m with hlt | hge
    · rw [getD_set_ne _ _ _ _ _ (by omega)]
      exact ih d hlt (by omega)
    · have hdm : d = m := by omega
      subst hdm
      rw [getD_set_self _ _ _ _ (by rw [foldl_set_length]; omega)]

lemma range_map_getD {α : Type} (l : List α) (dflt : α) :
    (List.range l.length).map (fun i => l.getD i dflt) = l := by
  induction l with
  | nil => rfl
  | cons a l' ih =>
    rw [List.length_cons, List.range_succ_eq_map, List.map_cons,
      List.map_map]
    simp only [Function.comp_def, List.getD_cons_succ,
      List.getD_cons_zero]
    rw [ih]

lemma foldl_join_eq {α β : Type} (ll : List (List α)) (step : β → α → β)
    (b : β) :
    ll.foldl (fun m doc => doc.foldl step m) b = ll.join.foldl step b := by
  induction ll generalizing b with
  | nil => rfl
  | cons doc rest ih =>
    show rest.foldl (fun m doc2 => doc2.foldl step m) (doc.foldl step b)
      = (doc ++ rest.join).foldl step b
    rw [List.foldl_append]
    exact ih _

lemma foldl_docs_join (corpus : List (List ℕ))
    (step : List (List ℤ) → ℕ → List (List ℤ)) (m0 : List (List ℤ)) :
    (List.range corpus.length).foldl
        (fun m d => (corpus.getD d []).foldl step m) m0
      = corpus.join.foldl step m0 := by
  have h1 : (List.range corpus.length).foldl
      (fun m d => (corpus.getD d []).foldl step m) m0
      = ((List.range corpus.length).map (fun d => corpus.getD d [])).foldl
          (fun m doc => doc.foldl step m) m0 := by
    rw [List.foldl_map]
  rw [h1, range_map_getD corpus []]
  exact foldl_join_eq corpus step m0

lemma foldl_incr_count (tokens : List ℕ) (r : List ℤ) (v : ℕ)
    (hv : v < r.length) :
    (tokens.foldl (fun r2 w => r2.set w (r2.getD w 0 + 1)) r).getD v 0
      = r.getD v 0 + tokens.count v := by
  induction tokens generalizing r with
  | nil => simp
  | cons w ws ih =>
    rw [List.foldl_cons, ih _ (by rw [List.length_set]; exact hv)]
    by_cases hwv : w = v
    · subst hwv
      rw [getD_set_self _ _ _ _ hv, List.count_cons_self]
      push_cast
      ring
    · rw [getD_set_ne _ _ _ _ _ hwv,
        List.count_cons_of_ne (by omega : v ≠ w)]

lemma getD_of_length_le {α : Type} (l : List α) (i : ℕ) (x : α)
    (h : l.length ≤ i) : l.getD i x = x := by
  induction l generalizing i with
  | nil => cases i <;> rfl
  | cons a l' ih =>
    cases i with
    | zero => simp at h
    | succ m => simpa using ih m (by simpa using h)

/-- **C7**: for every corpus with contiguous word-ids and initial K=1,
`_initialize` seats every token on table 0 of its document with that
table assigned topic 0, sets `n_kv[0][v]` to the corpus-wide frequency
of word-id v, `n_kd[0][d]` to `len(documents[d])` and `m_k[0]` to the
number of documents; in particular for `{0: [0,0,0,1,1]}` it yields
`n_kv = [[3,2]]`, `n_kd = [[5]]`, `m_k = [1]`, all five tokens on
table 0 of topic 0. -/
theorem initializeState_spec (corpus : List (List ℕ)) (al ga et : ℚ)
    (hval : ∀ v ∈ corpus.join, v < vocabSize corpus) :
    (∀ d i, tDV (initializeState corpus 1 al ga et) d i = 0) ∧
    (initializeState corpus 1 al ga et).k_dt
        = List.replicate corpus.length [0] ∧
    (∀ d, d < corpus.length →
      nKD (initializeState corpus 1 al ga et) 0 d
        = ((corpus.getD d []).length : ℤ)) ∧
    (∀ v, v < vocabSize corpus →
      nKV (initializeState corpus 1 al ga et) 0 v
        = (corpus.join.count v : ℤ)) ∧
    (initializeState corpus 1 al ga et).m_k = [(corpus.length : ℤ)] ∧
    (exS0.n_kv = [[3, 2]] ∧ exS0.n_kd = [[5]] ∧ exS0.m_k = [1] ∧
     exS0.t_dv = [[0, 0, 0, 0, 0]] ∧ exS0.k_dt = [[0]] ∧
     exS0.n_dt = [[5]]) := by
  have hnkv : (initializeState corpus 1 al ga et).n_kv
      = [corpus.join.foldl (fun r2 v => r2.set v (r2.getD v 0 + 1))
          (List.replicate (vocabSize corpus) 0)] := by
    show (initStats corpus (vocabSize corpus) 1).1 = _
    rw [initStats_fst,
      foldl_docs_join corpus (fun m2 v => update2 m2 0 v (· + 1))
        (List.replicate 1 (List.replicate (vocabSize corpus) 0))]
    exact foldl_update2_row0_tokens _ _
  have hnkd : (initializeState corpus 1 al ga et).n_kd
      = [(List.range corpus.length).foldl
          (fun r2 d => r2.set d ((corpus.getD d []).length : ℤ))
          (List.replicate corpus.length 0)] := by
    show (initStats corpus (vocabSize corpus) 1).2.1 = _
    rw [initStats_snd]
    exact foldl_update2_row0 _ _ _
  have hmk : (initializeState corpus 1 al ga et).m_k
      = [(corpus.length : ℤ)] := by
    show (initStats corpus (vocabSize corpus) 1).2.2 = _
    rw [initStats_thd]
    have h2 : (List.range corpus.length).foldl
        (fun m _ => m.set 0 (m.getD 0 0 + 1)) [(0:ℤ)]
        = [(0:ℤ) + (List.range corpus.length).length] :=
      foldl_set0_singleton _ _
    rw [show (List.replicate 1 (0:ℤ)) = [(0:ℤ)] from rfl, h2]
    simp
  refine ⟨?_, rfl, ?_, ?_, hmk, by decide, by decide, by decide,
    by decide, by decide, by decide⟩
  · intro d i
    unfold tDV
    show ((corpus.map (fun doc => List.replicate doc.length 0)).getD
      d []).getD i 0 = 0
    rcases Nat.lt_or_ge d corpus.length with hd | hd
    · rw [getD_map_of_lt _ _ _ _ [] hd]
      rcases Nat.lt_or_ge i (corpus.getD d []).length with hi | hi
      · exact getD_replicate _ _ _ _ hi
      · exact getD_of_length_le _ _ _ (by simpa using hi)
    · rw [show (corpus.map (fun doc => List.replicate doc.length 0)).getD
          d [] = [] from getD_of_length_le _ _ _ (by simpa using hd)]
      rfl
  · intro d hd
    unfold nKD
    rw [hnkd]
    exact foldl_set_range_getD corpus.length
      (List.replicate corpus.length 0)
      (fun j => ((corpus.getD j []).length : ℤ)) d hd (by simp)
  · intro v hv
    unfold nKV
    rw [hnkv]
    have h3 := foldl_incr_count corpus.join
      (List.replicate (vocabSize corpus) 0) v (by simpa using hv)
    rw [getD_replicate _ _ _ _ hv, zero_add] at h3
    exact h3

/-- Witness for C7 at the scenario corpus. -/
theorem initializeState_spec_witness :
    (∀ v ∈ exCorpus.join, v < vocabSize exCorpus) ∧
    (initializeState exCorpus 1 1 1 1).m_k = [(exCorpus.length : ℤ)] :=
  ⟨by decide, (initializeState_spec exCorpus 1 1 1 (by decide)).2.2.2.2.1⟩

/-! ## C8: word-ids as n_kv column indices -/

/-- Counterexample to C8 as stated: for the non-contiguous corpus
`{0: [0, 5]}` the vocabulary has V = 2 distinct word-ids, yet token 5
is used as an `n_kv` column index and `5 < 2` fails (numpy raises
IndexError on `n_kv[0, 5]`; the embedding's out-of-range update is a
no-op, so the resulting `n_kv = [[1, 0]]` has lost the token). -/
theorem n_kv_index_out_of_bounds :
    5 ∈ ([[0, 5]] : List (List ℕ)).join ∧
    vocabSize [[0, 5]] = 2 ∧
    ¬ (5 < vocabSize [[0, 5]]) ∧
    (initializeState [[0, 5]] 1 1 1 1).n_kv = [[1, 0]] :=
  ⟨by decide, by decide, by decide, by decide⟩

/-- **C8 (amended)**: the word-ids consumed as `n_kv` column indices by
`_initialize` (lines 95–96) and by the sampling steps are exactly the
corpus tokens; every such index is `< V` if and only if the distinct
word-ids are exactly `{0, ..., V-1}`, i.e. the word-ids are contiguous
from 0.  For a non-contiguous corpus some access index is ≥ V. -/
theorem n_kv_access_in_bounds_iff (corpus : List (List ℕ)) :
    (∀ v ∈ corpus.join, v < vocabSize corpus) ↔
      corpus.join.dedup.Perm (List.range (vocabSize corpus)) := by
  constructor
  · intro h
    have hnd : corpus.join.dedup.Nodup := List.nodup_dedup _
    have hsub : corpus.join.dedup ⊆ List.range (vocabSize corpus) := by
      intro v hv
      rw [List.mem_range]
      exact h v (List.mem_dedup.1 hv)
    exact (hnd.subperm hsub).perm_of_length_le
      (by rw [List.length_range]; exact Nat.le_of_eq rfl)
  · intro hperm v hv
    exact List.mem_range.1 (hperm.mem_iff.1 (List.mem_dedup.2 hv))

/-! ## C4: compact_params machinery -/

lemma foldl_map_passes {α : Type} (g : ℕ → α → α) (ts : List ℕ)
    (xs : List α) :
    ts.foldl (fun acc t => acc.map (g t)) xs
      = xs.map (fun x => ts.foldl (fun y t => g t y) x) := by
  induction ts generalizing xs with
  | nil => simp
  | cons t ts' ih =>
    rw [List.foldl_cons, ih, List.map_map]
    rfl

lemma pass_unchanged (used : List ℕ) (P : List ℕ) (y : ℕ)
    (h : ∀ t ∈ P, used.getD t 0 ≠ y) :
    P.foldl (fun y2 t => if y2 = used.getD t 0 then t else y2) y = y := by
  induction P with
  | nil => rfl
  | cons t P' ih =>
    rw [List.foldl_cons,
      if_neg (fun hy => (h t (by simp)) hy.symm)]
    exact ih (fun t' ht' => h t' (by simp [ht']))

lemma sorted_lt_le_get (l : List ℕ) (hs : List.Sorted (· < ·) l) (i : ℕ)
    (h : i < l.length) : i ≤ l.get ⟨i, h⟩ := by
  induction i with
  | zero => exact Nat.zero_le _
  | succ j ih =>
    have hj : j < l.length := by omega
    have h1 := ih hj
    have h2 : l.get ⟨j, hj⟩ < l.get ⟨j + 1, h⟩ :=
      List.Sorted.get_strictMono hs (by simp)
    omega

lemma sorted_lt_nodup (l : List ℕ) (hs : List.Sorted (· < ·) l) :
    l.Nodup :=
  hs.imp ne_of_lt

lemma getD_indexOf (l : List ℕ) (x : ℕ) (h : x ∈ l) :
    l.getD (l.indexOf x) 0 = x := by
  rw [List.getD_eq_getElem _ _ (List.indexOf_lt_length.2 h)]
  exact List.getElem_indexOf (List.indexOf_lt_length.2 h)

lemma indexOf_getD (l : List ℕ) (hnd : l.Nodup) (j : ℕ)
    (h : j < l.length) : l.indexOf (l.getD j 0) = j := by
  rw [List.getD_eq_getElem _ _ h]
  have h2 := List.get_indexOf hnd ⟨j, h⟩
  simpa using h2

/-- Evaluating the sequential remap passes on a value that occurs in a
sorted `used` list yields its index in that list. -/
lemma range_split (j k : ℕ) :
    List.range (j + 1 + k) = List.range j ++ j :: List.range' (j + 1) k := by
  rw [List.range_add, List.range_succ, List.append_cons,
    List.range'_eq_map_range]
  simp [List.append_assoc]

lemma passes_eval (used : List ℕ) (hs : List.Sorted (· < ·) used)
    (x : ℕ) (hx : x ∈ used) :
    (List.range used.length).foldl
        (fun y t => if y = used.getD t 0 then t else y) x
      = used.indexOf x := by
  have hnd := sorted_lt_nodup used hs
  have hidx : used.indexOf x < used.length := List.indexOf_lt_length.2 hx
  have hsplit := range_split (used.indexOf x)
    (used.length - used.indexOf x - 1)
  rw [show used.indexOf x + 1 + (used.length - used.indexOf x - 1)
      = used.length by omega] at hsplit
  rw [hsplit, List.foldl_append, List.foldl_cons]
  rw [pass_unchanged used _ x (fun t ht => by
    have htlt : t < used.indexOf x := List.mem_range.1 ht
    intro heq
    have ht2 : t < used.length := by omega
    rw [List.getD_eq_getElem _ _ ht2] at heq
    have : used.get ⟨t, ht2⟩ = used.get ⟨used.indexOf x, hidx⟩ := by
      rw [show used.get ⟨t, ht2⟩ = used[t] from rfl, heq]
      exact (List.getElem_indexOf hidx).symm
    have := (List.Nodup.get_inj_iff hnd).1 this
    simp at this
    omega)]
  rw [if_pos (by
    rw [List.getD_eq_getElem _ _ hidx]
    exact (List.getElem_indexOf hidx).symm)]
  apply pass_unchanged
  intro t ht
  have htmem := List.mem_range'_1.1 ht
  have ht2 : t < used.length := by omega
  have hge : t ≤ used.get ⟨t, ht2⟩ := sorted_lt_le_get used hs t ht2
  rw [List.getD_eq_getElem _ _ ht2]
  have : used.indexOf x + 1 ≤ t := htmem.1
  have hgeq : used.get ⟨t, ht2⟩ = used[t] := rfl
  omega

/-- The sequential remap of cgs.py lines 317–318/322–323 equals the
index-in-`used` map when `used` is sorted and every value occurs. -/
lemma remapSeq_eq_indexOf (used : List ℕ)
    (hs : List.Sorted (· < ·) used) (xs : List ℕ)
    (hall : ∀ x ∈ xs, x ∈ used) :
    remapSeq used used.length xs
      = xs.map (fun x => used.indexOf x) := by
  unfold remapSeq
  rw [foldl_map_passes]
  apply List.map_congr_left
  intro x hx
  exact passes_eval used hs x (hall x hx)

lemma usedTopics_sorted (s : HDPState) :
    List.Sorted (· < ·) (usedTopics s) :=
  (List.pairwise_lt_range _).filter _

lemma usedTables_sorted (s : HDPState) (d : ℕ) :
    List.Sorted (· < ·) (usedTables s d) :=
  (List.pairwise_lt_range _).filter _

lemma mem_usedTopics (s : HDPState) (k : ℕ) :
    k ∈ usedTopics s ↔ k < s.m_k.length ∧ s.m_k.getD k 0 ≠ 0 := by
  unfold usedTopics
  rw [List.mem_filter, List.mem_range]
  simp

lemma mem_usedTables (s : HDPState) (d t : ℕ) :
    t ∈ usedTables s d ↔ t < (s.n_dt.getD d []).length ∧
      (s.n_dt.getD d []).getD t 0 ≠ 0 := by
  unfold usedTables
  rw [List.mem_filter, List.mem_range]
  simp

lemma getD_mem_of_lt (l : List ℕ) (j : ℕ) (h : j < l.length) :
    l.getD j 0 ∈ l := by
  rw [List.getD_eq_getElem _ _ h]
  exact List.getElem_mem _

lemma compact_K_eq (s : HDPState) (hmk : s.m_k.length = s.K) :
    (compact_params s).K = (usedTopics s).length := by
  show s.K - (s.m_k.length - (usedTopics s).length) = _
  have hle : (usedTopics s).length ≤ s.m_k.length := by
    unfold usedTopics
    calc (List.filter _ (List.range s.m_k.length)).length
        ≤ (List.range s.m_k.length).length := List.length_filter_le _ _
      _ = s.m_k.length := List.length_range _
  omega

lemma compact_m_k (s : HDPState) :
    (compact_params s).m_k
      = (usedTopics s).map (fun k => s.m_k.getD k 0) := rfl

lemma compact_n_kv (s : HDPState) :
    (compact_params s).n_kv
      = (usedTopics s).map (fun k => s.n_kv.getD k []) := rfl

lemma compact_n_kd (s : HDPState) :
    (compact_params s).n_kd
      = (usedTopics s).map (fun k => s.n_kd.getD k []) := rfl

lemma compact_t_dv_row (s : HDPState) (d : ℕ) (hd : d < s.D) :
    (compact_params s).t_dv.getD d []
      = remapSeq (usedTables s d) (usedTables s d).length
          (s.t_dv.getD d []) := by
  show ((List.range s.D).map _).getD d [] = _
  rw [getD_range_map _ _ _ _ hd]

lemma compact_k_dt_row (s : HDPState) (d : ℕ) (hd : d < s.D)
    (hmk : s.m_k.length = s.K) :
    (compact_params s).k_dt.getD d []
      = remapSeq (usedTopics s) (usedTopics s).length
          ((usedTables s d).map
            (fun t => (s.k_dt.getD d []).getD t 0)) := by
  show ((List.range s.D).map _).getD d [] = _
  rw [getD_range_map _ _ _ _ hd]
  congr 1
  exact compact_K_eq s hmk

lemma remapSeq_length (used : List ℕ) (c : ℕ) (xs : List ℕ) :
    (remapSeq used c xs).length = xs.length := by
  unfold remapSeq
  rw [foldl_map_passes, List.length_map]

/-- **C4**: `compact_params` removes exactly the topics with
`m_k[k] == 0` (their rows of `n_kv`, `n_kd` and entries of `m_k`) and,
per document, exactly the tables with `n_dt[d][t] == 0`; it alters no
surviving count value and preserves relative order; afterwards the
topic indices used anywhere are exactly `{0, ..., K-1}` and the table
indices used in each document are exactly
`{0, ..., len(k_dt[d])-1}`, with every `t_dv` and `k_dt` reference
remapped consistently (the new index points at the old object). -/
theorem compact_params_spec (s : HDPState) (h : WF s) :
    (compact_params s).m_k
        = s.m_k.filter (fun x => decide (x ≠ 0)) ∧
    (compact_params s).K = (usedTopics s).length ∧
    List.Sorted (· < ·) (usedTopics s) ∧
    (∀ j, j < (compact_params s).K →
      (compact_params s).n_kv.getD j []
          = s.n_kv.getD ((usedTopics s).getD j 0) [] ∧
      (compact_params s).n_kd.getD j []
          = s.n_kd.getD ((usedTopics s).getD j 0) [] ∧
      mK s ((usedTopics s).getD j 0) ≠ 0) ∧
    (∀ k, k < s.K → mK s k ≠ 0 →
      ∃ j, j < (compact_params s).K ∧ (usedTopics s).getD j 0 = k) ∧
    (∀ d, d < s.D →
      (compact_params s).n_dt.getD d []
        = (s.n_dt.getD d []).filter (fun x => decide (x ≠ 0))) ∧
    (∀ d, d < s.D →
      (∀ x ∈ (compact_params s).t_dv.getD d [],
        x < ((compact_params s).k_dt.getD d []).length) ∧
      (∀ t, t < ((compact_params s).k_dt.getD d []).length →
        t ∈ (compact_params s).t_dv.getD d [])) ∧
    (∀ d, d < s.D → ∀ x ∈ (compact_params s).k_dt.getD d [],
      x < (compact_params s).K) ∧
    (∀ j, j < (compact_params s).K →
      ∃ d, d < s.D ∧ j ∈ (compact_params s).k_dt.getD d []) ∧
    (∀ d, d < s.D → ∀ i, i < (s.t_dv.getD d []).length →
      (usedTables s d).getD
          (((compact_params s).t_dv.getD d []).getD i 0) 0
        = (s.t_dv.getD d []).getD i 0) ∧
    (∀ d, d < s.D →
      ∀ j, j < ((compact_params s).k_dt.getD d []).length →
      (usedTopics s).getD
          (((compact_params s).k_dt.getD d []).getD j 0) 0
        = (s.k_dt.getD d []).getD ((usedTables s d).getD j 0) 0) := by
  obtain ⟨hmk, hkv, hkd, htd, hkdl, hndt, hpar, htv, hkval, hcount,
    hinv⟩ := h
  have hndTopics := sorted_lt_nodup _ (usedTopics_sorted s)
  have htv_used : ∀ d, d < s.D →
      ∀ x ∈ s.t_dv.getD d [], x ∈ usedTables s d := by
    intro d hd x hx
    rw [mem_usedTables]
    refine ⟨htv d hd x hx, ?_⟩
    rw [hcount d hd x (htv d hd x hx)]
    have hpos : 0 < (s.t_dv.getD d []).count x := List.count_pos_iff.2 hx
    exact Int.natCast_ne_zero.2 (by omega)
  have hkv_used : ∀ d, d < s.D → ∀ t ∈ usedTables s d,
      (s.k_dt.getD d []).getD t 0 ∈ usedTopics s := by
    intro d hd t ht
    rw [mem_usedTables] at ht
    have htk : t < (s.k_dt.getD d []).length := by
      rw [hpar d hd]
      exact ht.1
    have hmem : (s.k_dt.getD d []).getD t 0 ∈ s.k_dt.getD d [] :=
      getD_mem_of_lt _ _ htk
    have hklt : (s.k_dt.getD d []).getD t 0 < s.K := hkval d hd _ hmem
    rw [mem_usedTopics]
    exact ⟨by rw [hmk]; exact hklt,
      (hinv _ hklt).2 ⟨d, hd, t, ht.1, ht.2, rfl⟩⟩
  have ht_dv_row : ∀ d, d < s.D → (compact_params s).t_dv.getD d []
      = (s.t_dv.getD d []).map (fun x => (usedTables s d).indexOf x) := by
    intro d hd
    rw [compact_t_dv_row s d hd]
    exact remapSeq_eq_indexOf _ (usedTables_sorted s d) _ (htv_used d hd)
  have hk_dt_row : ∀ d, d < s.D → (compact_params s).k_dt.getD d []
      = ((usedTables s d).map (fun t => (s.k_dt.getD d []).getD t 0)).map
          (fun k => (usedTopics s).indexOf k) := by
    intro d hd
    rw [compact_k_dt_row s d hd hmk]
    apply remapSeq_eq_indexOf _ (usedTopics_sorted s)
    intro x hx
    rw [List.mem_map] at hx
    obtain ⟨t, ht, rfl⟩ := hx
    exact hkv_used d hd t ht
  have hk_len : ∀ d, d < s.D →
      ((compact_params s).k_dt.getD d []).length
        = (usedTables s d).length := by
    intro d hd
    rw [hk_dt_row d hd]
    simp
  refine ⟨?_, compact_K_eq s hmk, usedTopics_sorted s, ?_, ?_,
    fun d hd => compact_params_n_dt_row s d hd, ?_, ?_, ?_, ?_, ?_⟩
  · rw [compact_m_k]
    exact filter_range_getD_map s.m_k (fun x => decide (x ≠ 0))
  · intro j hj
    rw [compact_K_eq s hmk] at hj
    refine ⟨?_, ?_, ?_⟩
    · rw [compact_n_kv]
      exact getD_map_of_lt _ _ _ _ 0 hj
    · rw [compact_n_kd]
      exact getD_map_of_lt _ _ _ _ 0 hj
    · have := getD_mem_of_lt _ _ hj
      exact ((mem_usedTopics s _).1 this).2
  · intro k hk hne
    have hkm : k ∈ usedTopics s :=
      (mem_usedTopics s k).2 ⟨by rw [hmk]; exact hk, hne⟩
    refine ⟨(usedTopics s).indexOf k, ?_, ?_⟩
    · rw [compact_K_eq s hmk]
      exact List.indexOf_lt_length.2 hkm
    · exact getD_indexOf _ _ hkm
  · intro d hd
    constructor
    · intro x hx
      rw [ht_dv_row d hd] at hx
      rw [List.mem_map] at hx
      obtain ⟨y, hy, rfl⟩ := hx
      rw [hk_len d hd]
      exact List.indexOf_lt_length.2 (htv_used d hd y hy)
    · intro t htl
      rw [hk_len d hd] at htl
      have htm : (usedTables s d).getD t 0 ∈ usedTables s d :=
        getD_mem_of_lt _ _ htl
      have hnz := (mem_usedTables s d _).1 htm
      have hcnt : (s.n_dt.getD d []).getD ((usedTables s d).getD t 0) 0
          = (((s.t_dv.getD d []).count ((usedTables s d).getD t 0)) : ℤ) :=
        hcount d hd _ hnz.1
      have hmem : (usedTables s d).getD t 0 ∈ s.t_dv.getD d [] := by
        rw [hcnt] at hnz
        have : (s.t_dv.getD d []).count ((usedTables s d).getD t 0)
            ≠ 0 := by
          intro h0
          exact hnz.2 (by rw [h0]; rfl)
        exact List.count_pos_iff.1 (by omega)
      rw [ht_dv_row d hd]
      rw [List.mem_map]
      refine ⟨(usedTables s d).getD t 0, hmem, ?_⟩
      exact indexOf_getD _ (sorted_lt_nodup _ (usedTables_sorted s d))
        _ htl
  · intro d hd x hx
    rw [hk_dt_row d hd] at hx
    rw [List.mem_map] at hx
    obtain ⟨k, hk, rfl⟩ := hx
    rw [compact_K_eq s hmk]
    rw [List.mem_map] at hk
    obtain ⟨t, ht, rfl⟩ := hk
    exact List.indexOf_lt_length.2 (hkv_used d hd t ht)
  · intro j hj
    rw [compact_K_eq s hmk] at hj
    have hkm : (usedTopics s).getD j 0 ∈ usedTopics s :=
      getD_mem_of_lt _ _ hj
    have hprop := (mem_usedTopics s _).1 hkm
    have hklt : (usedTopics s).getD j 0 < s.K := by
      rw [← hmk]
      exact hprop.1
    obtain ⟨d, hd, t, htl, htne, hkeq⟩ := (hinv _ hklt).1 hprop.2
    refine ⟨d, hd, ?_⟩
    rw [hk_dt_row d hd]
    rw [List.mem_map]
    refine ⟨(usedTopics s).getD j 0, ?_, ?_⟩
    · rw [List.mem_map]
      exact ⟨t, (mem_usedTables s d t).2 ⟨htl, htne⟩, hkeq⟩
    · exact indexOf_getD _ hndTopics _ hj
  · intro d hd i hi
    rw [ht_dv_row d hd, getD_map_of_lt _ _ _ _ 0 hi]
    apply getD_indexOf
    exact htv_used d hd _ (getD_mem_of_lt _ _ hi)
  · intro d hd j hj
    rw [hk_len d hd] at hj
    rw [hk_dt_row d hd,
      getD_map_of_lt _ _ _ _ 0 (by simpa using hj),
      getD_map_of_lt _ _ _ _ 0 hj]
    apply getD_indexOf
    exact hkv_used d hd _ (getD_mem_of_lt _ _ hj)

/-- Witness for C4 at a state with one abandoned topic and one empty
table. -/
theorem compact_params_spec_witness :
    WF cmpState ∧
    (compact_params cmpState).m_k
      = cmpState.m_k.filter (fun x => decide (x ≠ 0)) :=
  ⟨by decide, (compact_params_spec cmpState (by decide)).1⟩

/-- Witness for C10 at the scenario state. -/
theorem sampled_indices_uint8_cast_witness :
    (0 < exS0.t_dv.length ∧ 0 < (exS0.t_dv.getD 0 []).length) ∧
    tDV (wordStep exS0 0 0 (1/2) (1/2)) 0 0
      = selectIndex (tableProb (update_params exS0 0 0 (-1)) 0
          (wordAt (update_params exS0 0 0 (-1)) 0 0)) (1/2) % 256 :=
  ⟨⟨by decide, by decide⟩,
    (sampled_indices_uint8_cast exS0 0 0 (1/2) (1/2) id id id exS0 0 0
      (1/2)).1 (by decide) (by decide)⟩

end HDP
